import Mathlib

/-!
Verification of the STR (short tandem repeat) rescanning and filtering core
of `jcvi/hli/str.py` (class `STRLine` and the `lobstrindex` driver loop).

The embedding works over `List Char` (Python strings), `Int` (Python 2
integers) and `ℚ`/`ℝ` (idealising Python floats: the textual pipeline, which
only ever manipulates finite decimals, is modelled with exact rationals so
that it stays executable; the Shannon entropy value, which is irrational, is
modelled with real numbers). Recursions are written with explicit fuel so
every definition evaluates by kernel reduction on concrete inputs.
-/

/-- The whitespace characters `str.split()` splits on (Python string.whitespace). -/
def pyIsSpace (c : Char) : Bool :=
  c = ' ' || c = '\t' || c = '\n' || c = '\r' || c = '\x0b' || c = '\x0c'

/-- ASCII decimal digit test. -/
def isDigitCh (c : Char) : Bool :=
  '0' ≤ c && c ≤ '9'

/-- Numeric value of an ASCII digit character. -/
def digitVal (c : Char) : Nat :=
  c.toNat - 48

/-- The ASCII character of a digit value below ten. -/
def digitCh : Nat → Char
  | 0 => '0'
  | 1 => '1'
  | 2 => '2'
  | 3 => '3'
  | 4 => '4'
  | 5 => '5'
  | 6 => '6'
  | 7 => '7'
  | 8 => '8'
  | 9 => '9'
  | _ => '*'

/-- Value of a digit string read most-significant first. -/
def digitsVal (ds : List Char) : Nat :=
  ds.foldl (fun a c => 10 * a + digitVal c) 0

/-- Decimal digits of a natural number, most significant first; the first
argument is recursion fuel (any amount at least the digit count works). -/
def natDigitsAux : Nat → Nat → List Char
  | 0, _ => []
  | fuel + 1, n => if n < 10 then [digitCh n] else natDigitsAux fuel (n / 10) ++ [digitCh (n % 10)]

/-- Decimal digits of a natural number, most significant first
(the digit part of Python `str(n)`). -/
def natDigits (n : Nat) : List Char :=
  natDigitsAux (n + 1) n

/-- Python `str` of an integer. -/
def strOfInt (n : Int) : List Char :=
  if n < 0 then '-' :: natDigits n.natAbs else natDigits n.natAbs

/-- Python `int(token)` on a signless token: a nonempty run of decimal digits
(the subset of `int()` relevant to whitespace-free tokens). -/
def pyIntDigits (ds : List Char) : Option Int :=
  if ds ≠ [] && ds.all isDigitCh then some (digitsVal ds) else none

/-- Python `int(token)` on a whitespace-free token: optional sign, digits. -/
def pyInt (t : List Char) : Option Int :=
  match t with
  | [] => none
  | c :: ds =>
    if c = '+' then pyIntDigits ds
    else if c = '-' then (pyIntDigits ds).map (fun v => -v)
    else pyIntDigits (c :: ds)

/-- Unsigned decimal float literal: `digits`, `digits.digits`, `digits.` or
`.digits`; the exact rational value it denotes. -/
def pyFloatUnsigned (t : List Char) : Option ℚ :=
  let ip := t.takeWhile (fun c => c ≠ '.')
  let rest := t.dropWhile (fun c => c ≠ '.')
  match rest with
  | [] => if ip ≠ [] && ip.all isDigitCh then some ((digitsVal ip : ℤ) : ℚ) else none
  | _ :: fp =>
    if fp.all (fun c => c ≠ '.') && ip.all isDigitCh && fp.all isDigitCh &&
        !(ip = [] && fp = []) then
      some (mkRat (digitsVal ip * 10 ^ fp.length + digitsVal fp : ℕ) (10 ^ fp.length))
    else none

/-- Python `float(token)` on a whitespace-free token (the plain decimal
subset of `float()`: no exponent, infinity or nan forms, which never occur
in the data this program reads or writes). -/
def pyFloat (t : List Char) : Option ℚ :=
  match t with
  | [] => none
  | c :: ds =>
    if c = '+' then pyFloatUnsigned ds
    else if c = '-' then (pyFloatUnsigned ds).map (fun v => -v)
    else pyFloatUnsigned (c :: ds)

/-- Drop trailing zero digits of a fraction part. -/
def stripZeros (ds : List Char) : List Char :=
  (ds.reverse.dropWhile (fun c => c = '0')).reverse

/-- Python `str` of a nonnegative float holding an exact decimal value `q`:
the digits of `q` scaled by `10 ^ k` to an integer (the scale `k := q.den`
always suffices for a finite decimal), with the fraction part printed after
a point, trailing zeros removed but at least one fraction digit kept
(so `10` prints as `10.0` and `97/10` as `9.7`). -/
def floatDigitsOf (q : ℚ) : List Char :=
  let k := q.den
  let m := (q.num * ((10 : ℤ) ^ k / (q.den : ℤ))).toNat
  let ds := natDigits m
  let ds := if ds.length < k + 1 then List.replicate (k + 1 - ds.length) '0' ++ ds else ds
  let ip := ds.take (ds.length - k)
  let fp := stripZeros (ds.drop (ds.length - k))
  ip ++ '.' :: (if fp = [] then ['0'] else fp)

/-- Python `str` of a float holding the exact decimal value `q`. -/
def strOfFloat (q : ℚ) : List Char :=
  if q < 0 then '-' :: floatDigitsOf (-q) else floatDigitsOf q

/-- The integer nearest `100 * q` (ties upward), written with integer floor
division so that it evaluates: this is the value `round (q * 100)`. -/
def round2 (q : ℚ) : ℤ :=
  (200 * q.num + q.den) / (2 * q.den)

/-- Python `"{0:.2f}".format(x)` on the idealised value `x : ℚ`: the value
rounded to two decimal places and printed with exactly two fraction digits. -/
def format2f (q : ℚ) : List Char :=
  let n : ℤ := round2 q
  let ds := natDigits n.natAbs
  let ds := if ds.length < 3 then List.replicate (3 - ds.length) '0' ++ ds else ds
  let sign : List Char := if n < 0 then ['-'] else []
  sign ++ ds.take (ds.length - 2) ++ '.' :: ds.drop (ds.length - 2)

example : natDigits 105 = ['1', '0', '5'] := by decide
example : strOfInt (-42) = ['-', '4', '2'] := by decide
example : pyInt ['-', '4', '2'] = some (-42) := by decide
example : pyFloat ['9', '.', '7'] = some (mkRat 97 10) := by decide
example : pyFloat ['.', '5'] = some (mkRat 1 2) := by decide
example : pyFloat ['5', '.', '5', '.'] = none := by decide
example : strOfFloat 10 = ['1', '0', '.', '0'] := by decide
example : strOfFloat (mkRat 97 10) = ['9', '.', '7'] := by decide
example : strOfFloat (mkRat (-97) 10) = ['-', '9', '.', '7'] := by decide
example : format2f (mkRat 19 10) = ['1', '.', '9', '0'] := by decide
example : format2f (mkRat (-1) 400) = ['0', '.', '0', '0'] := by decide
example : format2f (mkRat (-561) 100) = ['-', '5', '.', '6', '1'] := by decide

lemma digitVal_digitCh {d : Nat} (h : d < 10) : digitVal (digitCh d) = d := by
  interval_cases d <;> decide

lemma isDigitCh_digitCh {d : Nat} (h : d < 10) : isDigitCh (digitCh d) = true := by
  interval_cases d <;> decide

lemma digitsVal_from (ys : List Char) (a : Nat) :
    ys.foldl (fun a c => 10 * a + digitVal c) a = a * 10 ^ ys.length + digitsVal ys := by
  induction ys generalizing a with
  | nil => simp [digitsVal]
  | cons c ys ih =>
    have h1 : digitsVal (c :: ys) = (10 * 0 + digitVal c) * 10 ^ ys.length + digitsVal ys := by
      rw [digitsVal, List.foldl_cons, ih]
    rw [List.foldl_cons, ih, h1, List.length_cons]
    ring

lemma digitsVal_append (xs ys : List Char) :
    digitsVal (xs ++ ys) = digitsVal xs * 10 ^ ys.length + digitsVal ys := by
  unfold digitsVal
  rw [List.foldl_append]
  exact digitsVal_from ys _

lemma digitsVal_cons (c : Char) (ys : List Char) :
    digitsVal (c :: ys) = digitVal c * 10 ^ ys.length + digitsVal ys := by
  have := digitsVal_append [c] ys
  simpa [digitsVal, digitVal] using this

lemma natDigitsAux_spec {fuel n : Nat} (h : n < fuel) :
    digitsVal (natDigitsAux fuel n) = n ∧
      (natDigitsAux fuel n).all isDigitCh = true ∧ natDigitsAux fuel n ≠ [] := by
  induction fuel generalizing n with
  | zero => omega
  | succ fuel ih =>
    by_cases hn : n < 10
    · simp [natDigitsAux, hn, digitsVal, digitVal_digitCh, isDigitCh_digitCh]
    · have hdiv : n / 10 < fuel := by
        have h1 : n / 10 < n := Nat.div_lt_self (by omega) (by omega)
        omega
      obtain ⟨hv, hd, hne⟩ := ih hdiv
      refine ⟨?_, ?_, ?_⟩
      · simp only [natDigitsAux, if_neg hn]
        rw [digitsVal_append, hv]
        simp [digitsVal, digitVal_digitCh (Nat.mod_lt n (by omega))]
        omega
      · simp only [natDigitsAux, if_neg hn, List.all_append]
        simp [hd, isDigitCh_digitCh (Nat.mod_lt n (by omega))]
      · simp [natDigitsAux, if_neg hn]

lemma digitsVal_natDigits (n : Nat) : digitsVal (natDigits n) = n :=
  (natDigitsAux_spec (Nat.lt_succ_self n)).1

lemma natDigits_all_digits (n : Nat) : (natDigits n).all isDigitCh = true :=
  (natDigitsAux_spec (Nat.lt_succ_self n)).2.1

lemma natDigits_ne_nil (n : Nat) : natDigits n ≠ [] :=
  (natDigitsAux_spec (Nat.lt_succ_self n)).2.2

lemma pyIntDigits_natDigits (n : Nat) : pyIntDigits (natDigits n) = some ((n : ℕ) : ℤ) := by
  simp [pyIntDigits, natDigits_ne_nil, natDigits_all_digits, digitsVal_natDigits]

lemma isDigitCh_ne_sign {c : Char} (h : isDigitCh c = true) : c ≠ '+' ∧ c ≠ '-' := by
  constructor <;> rintro rfl <;> simp [isDigitCh] at h

lemma pyInt_of_digits {ds : List Char} (hne : ds ≠ []) (hd : ds.all isDigitCh = true) :
    pyInt ds = some ((digitsVal ds : ℕ) : ℤ) := by
  obtain ⟨c, cs, rfl⟩ := List.exists_cons_of_ne_nil hne
  have hc : isDigitCh c = true := by
    have := hd
    simp [List.all_cons] at this
    exact this.1
  obtain ⟨h1, h2⟩ := isDigitCh_ne_sign hc
  simp [pyInt, h1, h2, pyIntDigits, hd]

lemma pyInt_strOfInt (n : Int) : pyInt (strOfInt n) = some n := by
  by_cases h : n < 0
  · have hplus : ('-' : Char) ≠ '+' := by decide
    simp only [strOfInt, if_pos h, pyInt, if_neg hplus, if_pos rfl, pyIntDigits_natDigits]
    have habs : ((n.natAbs : ℤ)) = -n := Int.ofNat_natAbs_of_nonpos (le_of_lt h)
    simp [habs]
  · simp only [strOfInt, if_neg h]
    rw [pyInt_of_digits (natDigits_ne_nil _) (natDigits_all_digits _), digitsVal_natDigits]
    have habs : ((n.natAbs : ℤ)) = n := Int.natAbs_of_nonneg (by omega)
    rw [habs]

lemma digitVal_zeroCh : digitVal '0' = 0 := rfl

lemma digitsVal_replicate_zero (z : Nat) : digitsVal (List.replicate z '0') = 0 := by
  induction z with
  | zero => rfl
  | succ z ih => simp [List.replicate_succ, digitsVal_cons, ih, digitVal_zeroCh]

lemma digitsVal_append_zeros (ds : List Char) (z : Nat) :
    digitsVal (ds ++ List.replicate z '0') = digitsVal ds * 10 ^ z := by
  rw [digitsVal_append, digitsVal_replicate_zero, List.length_replicate]
  ring

lemma digitsVal_leading_zeros (z : Nat) (ds : List Char) :
    digitsVal (List.replicate z '0' ++ ds) = digitsVal ds := by
  rw [digitsVal_append, digitsVal_replicate_zero]
  ring

lemma allImp {p r : Char → Bool} (h : ∀ c, p c = true → r c = true) {l : List Char}
    (hl : l.all p = true) : l.all r = true := by
  rw [List.all_eq_true] at hl ⊢
  exact fun c hc => h c (hl c hc)

lemma stripZeros_decomp (l : List Char) :
    ∃ z, l = stripZeros l ++ List.replicate z '0' := by
  refine ⟨(l.reverse.takeWhile (fun c => c = '0')).length, ?_⟩
  have h2 : l.reverse.takeWhile (fun c => c = '0') =
      List.replicate (l.reverse.takeWhile (fun c => c = '0')).length '0' := by
    apply List.eq_replicate_of_mem
    intro b hb
    simpa using List.mem_takeWhile_imp hb
  calc l = l.reverse.reverse := (List.reverse_reverse l).symm
    _ = (l.reverse.takeWhile (fun c => c = '0') ++
          l.reverse.dropWhile (fun c => c = '0')).reverse := by
        rw [List.takeWhile_append_dropWhile]
    _ = (l.reverse.dropWhile (fun c => c = '0')).reverse ++
          (l.reverse.takeWhile (fun c => c = '0')).reverse := by
        rw [List.reverse_append]
    _ = stripZeros l ++ List.replicate (l.reverse.takeWhile (fun c => c = '0')).length '0' := by
        have h3 : (l.reverse.takeWhile (fun c => c = '0')).reverse =
            List.replicate (l.reverse.takeWhile (fun c => c = '0')).length '0' := by
          conv_lhs => rw [h2]
          rw [List.reverse_replicate]
        rw [h3]
        rfl

lemma stripZeros_sublist (l : List Char) : List.Sublist (stripZeros l) l := by
  have h := (List.dropWhile_sublist (l := l.reverse) (p := fun c => c = '0')).reverse
  rwa [List.reverse_reverse] at h

lemma all_of_sublist {p : Char → Bool} {s l : List Char} (hs : List.Sublist s l)
    (hl : l.all p = true) : s.all p = true := by
  rw [List.all_eq_true] at hl ⊢
  exact fun c hc => hl c (hs.subset hc)

lemma takeWhile_append_cons {p : Char → Bool} (l : List Char) (x : Char) (r : List Char)
    (hl : l.all p = true) (hx : p x = false) :
    (l ++ x :: r).takeWhile p = l ∧ (l ++ x :: r).dropWhile p = x :: r := by
  induction l with
  | nil => simp [List.takeWhile_cons, List.dropWhile_cons, hx]
  | cons c cs ih =>
    rw [List.all_cons, Bool.and_eq_true] at hl
    obtain ⟨h1, h2⟩ := ih hl.2
    simp [List.takeWhile_cons, List.dropWhile_cons, hl.1, h1, h2]

lemma isDigitCh_ne_dot {c : Char} (h : isDigitCh c = true) : c ≠ '.' := by
  rintro rfl
  exact absurd h (by decide)

lemma round2_eq_round (q : ℚ) : round2 q = round (q * 100) := by
  have hden : ((q.den : ℚ)) ≠ 0 := by
    exact_mod_cast q.den_nz
  have hqd : q * (q.den : ℚ) = ((q.num : ℤ) : ℚ) := by
    have h := div_mul_cancel₀ ((q.num : ℤ) : ℚ) hden
    rwa [Rat.num_div_den] at h
  have hne2 : (((2 * q.den : ℕ) : ℕ) : ℚ) ≠ 0 :=
    Nat.cast_ne_zero.mpr (by have := q.den_nz; omega)
  have hx : q * 100 + 1 / 2 =
      ((200 * q.num + (q.den : ℤ) : ℤ) : ℚ) / (((2 * q.den : ℕ) : ℕ) : ℚ) := by
    rw [eq_div_iff hne2]
    push_cast
    rw [← hqd]
    ring
  rw [round_eq, hx, Rat.floor_intCast_div_natCast, round2]
  push_cast
  ring_nf

lemma replicate_zero_all_digits (z : Nat) : (List.replicate z '0').all isDigitCh = true := by
  rw [List.all_eq_true]
  intro c hc
  rw [List.mem_replicate] at hc
  rw [hc.2]
  decide

lemma dvd_ten_pow_self {d l : ℕ} (h : d ∣ 10 ^ l) : d ∣ 10 ^ d := by
  have h10 : (10 : ℕ) ^ l = 2 ^ l * 5 ^ l := by rw [← Nat.mul_pow]
  rw [h10] at h
  obtain ⟨a, b, ha, hb, hab⟩ := Nat.dvd_mul.mp h
  obtain ⟨α, hαl, rfl⟩ := (Nat.dvd_prime_pow Nat.prime_two).mp ha
  obtain ⟨β, hβl, rfl⟩ := (Nat.dvd_prime_pow Nat.prime_five).mp hb
  have hfive : (0:ℕ) < 5 ^ β := pow_pos (by norm_num) β
  have htwo : (0:ℕ) < 2 ^ α := pow_pos (by norm_num) α
  have hα : α ≤ d := by
    have h1 : α < 2 ^ α := Nat.lt_two_pow α
    have h2 : 2 ^ α ≤ d := by
      calc 2 ^ α = 2 ^ α * 1 := by ring
        _ ≤ 2 ^ α * 5 ^ β := Nat.mul_le_mul_left _ hfive
        _ = d := hab
    omega
  have hβ : β ≤ d := by
    have h1 : β < 2 ^ β := Nat.lt_two_pow β
    have h15 : (2:ℕ) ^ β ≤ 5 ^ β := Nat.pow_le_pow_left (by norm_num) β
    have h2 : 5 ^ β ≤ d := by
      calc 5 ^ β = 1 * 5 ^ β := by ring
        _ ≤ 2 ^ α * 5 ^ β := Nat.mul_le_mul_right _ htwo
        _ = d := hab
    omega
  have : (2:ℕ) ^ α * 5 ^ β ∣ 2 ^ d * 5 ^ d :=
    mul_dvd_mul (pow_dvd_pow 2 hα) (pow_dvd_pow 5 hβ)
  rw [hab, ← Nat.mul_pow] at this
  exact this

lemma pow_ten_ne_zero (n : ℕ) : ((10 : ℚ)) ^ n ≠ 0 := pow_ne_zero _ (by norm_num)

lemma floatDigitsOf_parse {q : ℚ} (hq : 0 ≤ q) (hdvd : q.den ∣ 10 ^ q.den) :
    pyFloatUnsigned (floatDigitsOf q) = some q ∧
      (∃ c t, floatDigitsOf q = c :: t ∧ isDigitCh c = true) ∧
      (floatDigitsOf q).all (fun c => isDigitCh c || c = '.') = true := by
  obtain ⟨e, he⟩ := hdvd
  have hk0 : 0 < q.den := q.pos
  have hkne : (q.den : ℤ) ≠ 0 := by exact_mod_cast hk0.ne'
  have h10 : ((10 : ℤ) ^ q.den) = ((q.den : ℤ)) * (e : ℤ) := by exact_mod_cast he
  have hediv : (10 : ℤ) ^ q.den / (q.den : ℤ) = (e : ℤ) := by
    rw [h10, Int.mul_ediv_cancel_left _ hkne]
  have hnum : 0 ≤ q.num := Rat.num_nonneg.mpr hq
  set M := (q.num * ((10 : ℤ) ^ q.den / (q.den : ℤ))).toNat with hMdef
  have hM : (M : ℤ) = q.num * (e : ℤ) := by
    rw [hMdef, hediv]
    exact Int.toNat_of_nonneg (mul_nonneg hnum (by positivity))
  have hdenQ : ((q.den : ℚ)) ≠ 0 := by exact_mod_cast hk0.ne'
  have hqd : q * (q.den : ℚ) = ((q.num : ℤ) : ℚ) := by
    have h := div_mul_cancel₀ ((q.num : ℤ) : ℚ) hdenQ
    rwa [Rat.num_div_den] at h
  have hMq : ((M : ℕ) : ℚ) = q * 10 ^ q.den := by
    have h1 : ((M : ℕ) : ℚ) = ((q.num : ℤ) : ℚ) * ((e : ℕ) : ℚ) := by exact_mod_cast hM
    have h2 : ((q.den : ℚ)) * ((e : ℕ) : ℚ) = 10 ^ q.den := by exact_mod_cast he.symm
    rw [h1, ← hqd, mul_assoc, h2]
  -- the padded digit string
  set ds0 := natDigits M with hds0
  set DS := if ds0.length < q.den + 1 then List.replicate (q.den + 1 - ds0.length) '0' ++ ds0
    else ds0 with hDS
  have hDSval : digitsVal DS = M := by
    rw [hDS]
    split
    · rw [digitsVal_leading_zeros, hds0, digitsVal_natDigits]
    · rw [hds0, digitsVal_natDigits]
  have hDSdig : DS.all isDigitCh = true := by
    rw [hDS]
    split
    · rw [List.all_append, Bool.and_eq_true]
      exact ⟨replicate_zero_all_digits _, hds0 ▸ natDigits_all_digits M⟩
    · exact hds0 ▸ natDigits_all_digits M
  have hDSlen : q.den + 1 ≤ DS.length := by
    rw [hDS]
    split
    · rw [List.length_append, List.length_replicate]
      omega
    · omega
  set IP := DS.take (DS.length - q.den) with hIP
  set FP0 := DS.drop (DS.length - q.den) with hFP0
  have hsplitDS : DS = IP ++ FP0 := (List.take_append_drop _ _).symm
  have hIPlen : IP.length = DS.length - q.den := by
    rw [hIP, List.length_take]
    omega
  have hFP0len : FP0.length = q.den := by
    rw [hFP0, List.length_drop]
    omega
  have hIPne : IP ≠ [] := by
    have : 0 < IP.length := by omega
    exact List.ne_nil_of_length_pos this
  have hIPdig : IP.all isDigitCh = true := all_of_sublist (hIP ▸ List.take_sublist _ _) hDSdig
  have hFP0dig : FP0.all isDigitCh = true := all_of_sublist (hFP0 ▸ List.drop_sublist _ _) hDSdig
  have hvalsplit : digitsVal IP * 10 ^ q.den + digitsVal FP0 = M := by
    rw [← hDSval, hsplitDS, digitsVal_append, hFP0len]
  set FP := stripZeros FP0 with hFP
  obtain ⟨z, hzdecomp⟩ := stripZeros_decomp FP0
  rw [← hFP] at hzdecomp
  have hzlen : FP.length + z = q.den := by
    have := congrArg List.length hzdecomp
    rw [List.length_append, List.length_replicate] at this
    omega
  have hFPdig : FP.all isDigitCh = true := all_of_sublist (hFP ▸ stripZeros_sublist _) hFP0dig
  have hFP0val : digitsVal FP0 = digitsVal FP * 10 ^ z := by
    rw [hzdecomp, digitsVal_append_zeros, hFP]
  have hIPp : IP.all (fun c => decide (c ≠ '.')) = true :=
    allImp (fun c h => decide_eq_true (isDigitCh_ne_dot h)) hIPdig
  have hdot : (decide (('.' : Char) ≠ '.')) = false := by decide
  -- head digit fact
  obtain ⟨c0, t0, hcons⟩ := List.exists_cons_of_ne_nil hIPne
  have hc0 : isDigitCh c0 = true := by
    have := hIPdig
    rw [hcons, List.all_cons, Bool.and_eq_true] at this
    exact this.1
  have hshape : floatDigitsOf q = IP ++ '.' :: (if FP = [] then ['0'] else FP) := by
    simp only [floatDigitsOf]
  constructor
  · rw [hshape]
    by_cases hFPnil : FP = []
    · rw [if_pos hFPnil]
      obtain ⟨htake, hdrop⟩ := takeWhile_append_cons IP '.' ['0']
        hIPp hdot
      have hFP0z : digitsVal FP0 = 0 := by
        rw [hFP0val, hFPnil]
        simp [digitsVal]
      rw [pyFloatUnsigned]
      rw [htake, hdrop]
      have hval : (digitsVal IP : ℚ) = q := by
        have hM2 : ((M : ℕ) : ℚ) = (digitsVal IP : ℚ) * 10 ^ q.den := by
          rw [← hvalsplit, hFP0z]
          push_cast
          ring
        have h3 := hMq.symm.trans hM2
        exact (mul_right_cancel₀ (pow_ten_ne_zero q.den) h3.symm)
      have h0 : digitsVal ['0'] = 0 := by decide
      simp only [hIPdig]
      rw [if_pos (by simp [hIPne, show isDigitCh '0' = true from by decide])]
      congr 1
      rw [Rat.mkRat_eq_div, eq_comm, eq_div_iff (by positivity)]
      rw [← hval]
      push_cast [h0]
      ring
    · rw [if_neg hFPnil]
      obtain ⟨htake, hdrop⟩ := takeWhile_append_cons IP '.' FP hIPp hdot
      rw [pyFloatUnsigned]
      rw [htake, hdrop]
      have hFPp : FP.all (fun c => decide (c ≠ '.')) = true :=
        allImp (fun c h => decide_eq_true (isDigitCh_ne_dot h)) hFPdig
      simp only [hIPdig, hFPp, hFPdig]
      rw [if_pos (by simp [hIPne])]
      congr 1
      rw [Rat.mkRat_eq_div]
      rw [eq_comm, eq_div_iff (by push_cast; exact pow_ten_ne_zero FP.length)]
      have hM2 : (M : ℚ) = ((digitsVal IP * 10 ^ FP.length + digitsVal FP : ℕ) : ℚ) * 10 ^ z := by
        rw [← hvalsplit, hFP0val]
        push_cast
        have hsplit : (10 : ℚ) ^ q.den = 10 ^ FP.length * 10 ^ z := by
          rw [← pow_add, hzlen]
        rw [hsplit]
        ring
      have hq10 : q * 10 ^ q.den = q * 10 ^ FP.length * 10 ^ z := by
        rw [mul_assoc, ← pow_add, hzlen]
      have := hMq.symm.trans hM2
      rw [hq10] at this
      have h1 := mul_right_cancel₀ (pow_ten_ne_zero z) this
      push_cast at h1 ⊢
      rw [← h1]
  refine ⟨⟨c0, t0 ++ '.' :: (if FP = [] then ['0'] else FP), by rw [hshape, hcons]; rfl, hc0⟩, ?_⟩
  rw [hshape, List.all_append, Bool.and_eq_true]
  constructor
  · exact allImp (fun c h => by rw [h]; rfl) hIPdig
  · rw [List.all_cons, Bool.and_eq_true]
    refine ⟨by decide, ?_⟩
    split
    · decide
    · exact allImp (fun c h => by rw [h]; rfl) hFPdig

lemma mkRat_den_dvd (n : ℤ) (d : ℕ) : (mkRat n d).den ∣ d := by
  have h := Rat.den_dvd n (d : ℤ)
  rw [← Rat.mkRat_eq_divInt] at h
  exact_mod_cast h

lemma pyFloatUnsigned_isDecimal {t : List Char} {q : ℚ}
    (h : pyFloatUnsigned t = some q) : ∃ l, q.den ∣ 10 ^ l := by
  simp only [pyFloatUnsigned] at h
  rcases hr : t.dropWhile (fun c => c ≠ '.') with _ | ⟨x, fp⟩ <;> simp only [hr] at h
  · split_ifs at h with h1
    have hq := Option.some_injective _ h
    refine ⟨0, ?_⟩
    rw [← hq, Rat.den_intCast, pow_zero]
  · split_ifs at h with h1
    have hq := Option.some_injective _ h
    refine ⟨fp.length, ?_⟩
    rw [← hq]
    exact mkRat_den_dvd _ _

lemma pyFloat_isDecimal {t : List Char} {q : ℚ}
    (h : pyFloat t = some q) : ∃ l, q.den ∣ 10 ^ l := by
  cases t with
  | nil => simp [pyFloat] at h
  | cons c ds =>
    simp only [pyFloat] at h
    split_ifs at h with h1 h2
    · exact pyFloatUnsigned_isDecimal h
    · rcases hu : pyFloatUnsigned ds with _ | v <;> rw [hu] at h
      · simp at h
      · simp only [Option.map_some'] at h
        have hv := Option.some_injective _ h
        obtain ⟨l, hl⟩ := pyFloatUnsigned_isDecimal hu
        refine ⟨l, ?_⟩
        rw [← hv, Rat.neg_den]
        exact hl
    · exact pyFloatUnsigned_isDecimal h

lemma pyFloat_strOfFloat {t : List Char} {q : ℚ} (h : pyFloat t = some q) :
    pyFloat (strOfFloat q) = some q := by
  obtain ⟨l, hl⟩ := pyFloat_isDecimal h
  have hdvd : q.den ∣ 10 ^ q.den := dvd_ten_pow_self hl
  by_cases hneg : q < 0
  · rw [strOfFloat, if_pos hneg]
    have hnn : 0 ≤ -q := by linarith
    have hdvd2 : (-q).den ∣ 10 ^ (-q).den := by rw [Rat.neg_den]; exact hdvd
    obtain ⟨hparse, -, -⟩ := floatDigitsOf_parse hnn hdvd2
    have hmap : pyFloat ('-' :: floatDigitsOf (-q)) =
        (pyFloatUnsigned (floatDigitsOf (-q))).map (fun v => -v) := by
      simp [pyFloat]
    rw [hmap, hparse, Option.map_some', neg_neg]
  · rw [strOfFloat, if_neg hneg]
    have hnn : 0 ≤ q := not_lt.mp hneg
    obtain ⟨hparse, ⟨c, t0, hct, hcdig⟩, -⟩ := floatDigitsOf_parse hnn hdvd
    obtain ⟨h1, h2⟩ := isDigitCh_ne_sign hcdig
    rw [hct]
    simp only [pyFloat]
    rw [if_neg h1, if_neg h2, ← hct, hparse]

lemma isDigitCh_not_space {c : Char} (h : isDigitCh c = true) : pyIsSpace c = false := by
  by_contra hne
  have hsp : pyIsSpace c = true := by
    cases hps : pyIsSpace c
    · exact absurd hps hne
    · rfl
  rw [pyIsSpace] at hsp
  simp only [Bool.or_eq_true, decide_eq_true_eq] at hsp
  rcases hsp with ((((rfl | rfl) | rfl) | rfl) | rfl) | rfl <;> exact absurd h (by decide)

lemma floatChar_not_space {c : Char}
    (h : (isDigitCh c || c = '.' || c = '-') = true) : pyIsSpace c = false := by
  simp only [Bool.or_eq_true, decide_eq_true_eq] at h
  rcases h with (hd | rfl) | rfl
  · exact isDigitCh_not_space hd
  · decide
  · decide

lemma strOfFloat_token {t : List Char} {q : ℚ} (h : pyFloat t = some q) :
    strOfFloat q ≠ [] ∧ (strOfFloat q).all (fun c => !pyIsSpace c) = true := by
  obtain ⟨l, hl⟩ := pyFloat_isDecimal h
  have hdvd : q.den ∣ 10 ^ q.den := dvd_ten_pow_self hl
  have hchars : ∀ r : ℚ, 0 ≤ r → r.den ∣ 10 ^ r.den →
      (floatDigitsOf r).all (fun c => !pyIsSpace c) = true := by
    intro r h1 h2
    obtain ⟨-, -, hall⟩ := floatDigitsOf_parse h1 h2
    refine allImp (fun c hc => ?_) hall
    have := floatChar_not_space (c := c) (by
      simp only [Bool.or_eq_true] at hc ⊢
      tauto)
    rw [this]
    rfl
  have hne : ∀ r : ℚ, 0 ≤ r → r.den ∣ 10 ^ r.den → floatDigitsOf r ≠ [] := by
    intro r h1 h2
    obtain ⟨-, ⟨c, t0, hct, -⟩, -⟩ := floatDigitsOf_parse h1 h2
    rw [hct]
    exact List.cons_ne_nil _ _
  by_cases hneg : q < 0
  · have hnn : 0 ≤ -q := by linarith
    have hdvd2 : (-q).den ∣ 10 ^ (-q).den := by rw [Rat.neg_den]; exact hdvd
    rw [strOfFloat, if_pos hneg]
    refine ⟨List.cons_ne_nil _ _, ?_⟩
    rw [List.all_cons, Bool.and_eq_true]
    exact ⟨by decide, hchars _ hnn hdvd2⟩
  · rw [strOfFloat, if_neg hneg]
    exact ⟨hne q (not_lt.mp hneg) hdvd, hchars q (not_lt.mp hneg) hdvd⟩

lemma format2f_parse (q : ℚ) :
    pyFloat (format2f q) = some (mkRat (round2 q) 100) ∧
      format2f q ≠ [] ∧ (format2f q).all (fun c => !pyIsSpace c) = true := by
  set n := round2 q with hn
  set A := n.natAbs with hA
  set ds0 := natDigits A with hds0
  set DS := if ds0.length < 3 then List.replicate (3 - ds0.length) '0' ++ ds0 else ds0 with hDS
  have hDSval : digitsVal DS = A := by
    rw [hDS]
    split
    · rw [digitsVal_leading_zeros, hds0, digitsVal_natDigits]
    · rw [hds0, digitsVal_natDigits]
  have hDSdig : DS.all isDigitCh = true := by
    rw [hDS]
    split
    · rw [List.all_append, Bool.and_eq_true]
      exact ⟨replicate_zero_all_digits _, hds0 ▸ natDigits_all_digits A⟩
    · exact hds0 ▸ natDigits_all_digits A
  have hDSlen : 3 ≤ DS.length := by
    rw [hDS]
    split
    · rw [List.length_append, List.length_replicate]
      omega
    · omega
  set IP := DS.take (DS.length - 2) with hIP
  set FPx := DS.drop (DS.length - 2) with hFPx
  have hsplitDS : DS = IP ++ FPx := (List.take_append_drop _ _).symm
  have hIPlen : IP.length = DS.length - 2 := by
    rw [hIP, List.length_take]
    omega
  have hFPxlen : FPx.length = 2 := by
    rw [hFPx, List.length_drop]
    omega
  have hIPne : IP ≠ [] := by
    have : 0 < IP.length := by omega
    exact List.ne_nil_of_length_pos this
  have hIPdig : IP.all isDigitCh = true := all_of_sublist (hIP ▸ List.take_sublist _ _) hDSdig
  have hFPxdig : FPx.all isDigitCh = true := all_of_sublist (hFPx ▸ List.drop_sublist _ _) hDSdig
  have hvalsplit : digitsVal IP * 10 ^ 2 + digitsVal FPx = A := by
    rw [← hDSval, hsplitDS, digitsVal_append, hFPxlen]
  have hIPp : IP.all (fun c => decide (c ≠ '.')) = true :=
    allImp (fun c h => decide_eq_true (isDigitCh_ne_dot h)) hIPdig
  have hFPxp : FPx.all (fun c => decide (c ≠ '.')) = true :=
    allImp (fun c h => decide_eq_true (isDigitCh_ne_dot h)) hFPxdig
  have hdot : (decide (('.' : Char) ≠ '.')) = false := by decide
  obtain ⟨htake, hdrop⟩ := takeWhile_append_cons IP '.' FPx hIPp hdot
  obtain ⟨c0, t0, hcons⟩ := List.exists_cons_of_ne_nil hIPne
  have hc0 : isDigitCh c0 = true := by
    have h1 := hIPdig
    rw [hcons, List.all_cons, Bool.and_eq_true] at h1
    exact h1.1
  have hunsigned : pyFloatUnsigned (IP ++ '.' :: FPx) = some (mkRat (A : ℕ) 100) := by
    rw [pyFloatUnsigned]
    rw [htake, hdrop]
    simp only [hIPdig, hFPxdig, hFPxp]
    rw [if_pos (by simp [hIPne])]
    rw [hFPxlen]
    rw [hvalsplit]
    norm_num
  have hshape : format2f q = (if n < 0 then ['-'] else []) ++ IP ++ '.' :: FPx := by
    simp only [format2f]
  have hclass : (IP ++ '.' :: FPx).all (fun c => !pyIsSpace c) = true := by
    rw [List.all_append, Bool.and_eq_true, List.all_cons, Bool.and_eq_true]
    refine ⟨allImp (fun c hc => by rw [isDigitCh_not_space hc]; rfl) hIPdig, by decide,
      allImp (fun c hc => by rw [isDigitCh_not_space hc]; rfl) hFPxdig⟩
  by_cases hneg : n < 0
  · rw [hshape, if_pos hneg]
    refine ⟨?_, List.cons_ne_nil _ _, ?_⟩
    · have hmap : pyFloat ('-' :: (IP ++ '.' :: FPx)) =
          (pyFloatUnsigned (IP ++ '.' :: FPx)).map (fun v => -v) := by
        simp [pyFloat]
      rw [List.singleton_append, List.cons_append]
      rw [hmap, hunsigned, Option.map_some']
      have hAn : ((A : ℕ) : ℤ) = -n := by
        rw [hA]
        exact Int.ofNat_natAbs_of_nonpos (le_of_lt hneg)
      have hval : (-(mkRat ((A : ℕ) : ℤ) 100) : ℚ) = mkRat n 100 := by
        rw [Rat.mkRat_eq_div, Rat.mkRat_eq_div]
        push_cast
        rw [show ((A : ℕ) : ℚ) = -((n : ℤ) : ℚ) from by exact_mod_cast hAn]
        ring
      rw [hval]
    · rw [List.singleton_append, List.cons_append, List.all_cons, Bool.and_eq_true]
      exact ⟨by decide, hclass⟩
  · rw [hshape, if_neg hneg]
    rw [List.nil_append]
    refine ⟨?_, by rw [hcons]; exact List.cons_ne_nil _ _, hclass⟩
    obtain ⟨h1, h2⟩ := isDigitCh_ne_sign hc0
    rw [hcons, List.cons_append]
    simp only [pyFloat]
    rw [if_neg h1, if_neg h2, ← List.cons_append, ← hcons, hunsigned]
    have hAn : ((A : ℕ) : ℤ) = n := by
      rw [hA]
      exact Int.natAbs_of_nonneg (not_lt.mp hneg)
    rw [hAn]

lemma round2_mkRat_round2 (q : ℚ) : round2 (mkRat (round2 q) 100) = round2 q := by
  rw [round2_eq_round (mkRat (round2 q) 100), Rat.mkRat_eq_div]
  have h : ((round2 q : ℤ) : ℚ) / (((100 : ℕ)) : ℚ) * 100 = ((round2 q : ℤ) : ℚ) := by
    push_cast
    field_simp
  rw [h, round_intCast]

lemma format2f_stable (q : ℚ) : format2f (mkRat (round2 q) 100) = format2f q := by
  have h := round2_mkRat_round2 q
  simp only [format2f, h]

/-- Python tab join, `"\t".join(tokens)`, as the record serialiser uses. -/
def joinTab : List (List Char) → List Char
  | [] => []
  | [t] => t
  | t :: ts => t ++ '\t' :: joinTab ts

lemma length_dropWhile_le (p : Char → Bool) (l : List Char) :
    (l.dropWhile p).length ≤ l.length :=
  List.Sublist.length_le (List.dropWhile_sublist p)

/-- Python `str.split()` with no separator: split on runs of whitespace and
drop empty pieces. The first argument is recursion fuel (the string length
suffices). -/
def splitWsAux : Nat → List Char → List (List Char)
  | 0, _ => []
  | fuel + 1, l =>
    match l with
    | [] => []
    | c :: cs =>
      if pyIsSpace c then splitWsAux fuel cs
      else (c :: cs.takeWhile (fun d => !pyIsSpace d)) ::
        splitWsAux fuel (cs.dropWhile (fun d => !pyIsSpace d))

/-- Python `line.split()`. -/
def splitWs (l : List Char) : List (List Char) :=
  splitWsAux l.length l

lemma splitWsAux_nil (fuel : Nat) : splitWsAux fuel [] = [] := by
  cases fuel <;> rfl

lemma splitWsAux_congr {f1 : Nat} : ∀ {f2 : Nat} {l : List Char},
    l.length ≤ f1 → l.length ≤ f2 → splitWsAux f1 l = splitWsAux f2 l := by
  induction f1 with
  | zero =>
    intro f2 l h1 h2
    have : l = [] := List.eq_nil_of_length_eq_zero (by omega)
    subst this
    rw [splitWsAux_nil, splitWsAux_nil]
  | succ f1 ih =>
    intro f2 l h1 h2
    cases l with
    | nil => rw [splitWsAux_nil, splitWsAux_nil]
    | cons c cs =>
      cases f2 with
      | zero => simp at h2
      | succ f2 =>
        simp only [splitWsAux]
        rw [List.length_cons] at h1 h2
        have hcs : cs.length ≤ f1 := by omega
        have hcs2 : cs.length ≤ f2 := by omega
        by_cases hc : pyIsSpace c
        · rw [if_pos hc, if_pos hc]
          exact ih hcs hcs2
        · rw [if_neg hc, if_neg hc]
          congr 1
          exact ih (le_trans (length_dropWhile_le _ _) hcs)
            (le_trans (length_dropWhile_le _ _) hcs2)

lemma splitWs_cons_space (c : Char) (cs : List Char) (hc : pyIsSpace c = true) :
    splitWs (c :: cs) = splitWs cs := by
  rw [splitWs, splitWs, List.length_cons]
  simp only [splitWsAux]
  rw [if_pos hc]

lemma splitWs_single_token (tok : List Char) (hne : tok ≠ [])
    (hws : tok.all (fun c => !pyIsSpace c) = true) : splitWs tok = [tok] := by
  obtain ⟨c, cs, rfl⟩ := List.exists_cons_of_ne_nil hne
  rw [List.all_cons, Bool.and_eq_true] at hws
  obtain ⟨hc, hcs⟩ := hws
  rw [splitWs, List.length_cons]
  simp only [splitWsAux]
  rw [if_neg (by simp [Bool.not_eq_true] at hc ⊢; exact hc)]
  rw [List.takeWhile_eq_self_iff.mpr (by rw [← List.all_eq_true]; exact hcs)]
  rw [List.dropWhile_eq_nil_iff.mpr (by intro x hx; rw [List.all_eq_true] at hcs; exact hcs x hx)]
  rw [splitWsAux_nil]

lemma splitWs_token_append (tok rest : List Char) (hne : tok ≠ [])
    (hws : tok.all (fun c => !pyIsSpace c) = true) :
    splitWs (tok ++ '\t' :: rest) = tok :: splitWs rest := by
  obtain ⟨c, cs, rfl⟩ := List.exists_cons_of_ne_nil hne
  rw [List.all_cons, Bool.and_eq_true] at hws
  obtain ⟨hc, hcs⟩ := hws
  rw [List.cons_append, splitWs, List.length_cons]
  simp only [splitWsAux]
  rw [if_neg (by simp [Bool.not_eq_true] at hc ⊢; exact hc)]
  have htab : (fun d => !pyIsSpace d) '\t' = false := by decide
  obtain ⟨htake, hdrop⟩ := takeWhile_append_cons cs '\t' rest hcs htab
  rw [htake, hdrop]
  congr 1
  have h1 : ('\t' :: rest).length ≤ (cs ++ '\t' :: rest).length := by
    rw [List.length_append]
    omega
  rw [splitWsAux_congr h1 (le_refl _)]
  have : ('\t' :: rest).length = rest.length + 1 := rfl
  rw [this]
  simp only [splitWsAux]
  rw [if_pos (by decide)]
  rfl

lemma splitWs_joinTab : ∀ (ts : List (List Char)),
    (∀ t ∈ ts, t ≠ [] ∧ t.all (fun c => !pyIsSpace c) = true) →
    splitWs (joinTab ts) = ts := by
  intro ts
  induction ts with
  | nil => intro _; rfl
  | cons t ts ih =>
    intro h
    obtain ⟨hne, hws⟩ := h t (List.mem_cons_self t ts)
    cases ts with
    | nil =>
      rw [joinTab]
      exact splitWs_single_token t hne hws
    | cons t2 ts2 =>
      rw [show joinTab (t :: t2 :: ts2) = t ++ '\t' :: joinTab (t2 :: ts2) from rfl]
      rw [splitWs_token_append t (joinTab (t2 :: ts2)) hne hws]
      rw [ih (fun x hx => h x (List.mem_cons_of_mem _ hx))]

lemma splitWs_tokens : ∀ (l : List Char) (t : List Char), t ∈ splitWs l →
    t ≠ [] ∧ t.all (fun c => !pyIsSpace c) = true := by
  have haux : ∀ (fuel : Nat) (l : List Char), l.length ≤ fuel → ∀ t ∈ splitWsAux fuel l,
      t ≠ [] ∧ t.all (fun c => !pyIsSpace c) = true := by
    intro fuel
    induction fuel with
    | zero =>
      intro l hl t ht
      rw [show splitWsAux 0 l = [] from rfl] at ht
      simp at ht
    | succ fuel ih =>
      intro l hl t ht
      cases l with
      | nil =>
        rw [splitWsAux_nil] at ht
        simp at ht
      | cons c cs =>
        rw [List.length_cons] at hl
        simp only [splitWsAux] at ht
        by_cases hc : pyIsSpace c
        · rw [if_pos hc] at ht
          exact ih cs (by omega) t ht
        · rw [if_neg hc] at ht
          rcases List.mem_cons.mp ht with rfl | hmem
          · refine ⟨List.cons_ne_nil _ _, ?_⟩
            rw [List.all_cons, Bool.and_eq_true]
            refine ⟨by simp [hc], ?_⟩
            rw [List.all_eq_true]
            intro x hx
            have h2 := List.mem_takeWhile_imp hx
            exact h2
          · exact ih _ (le_trans (length_dropWhile_le _ _) (by omega)) t hmem
  exact fun l => haux l.length l (le_refl _)

/-- One candidate tandem-repeat annotation (`class STRLine` of `hli/str.py`).
The structure is parameterised by the carrier of the `entropy` attribute:
records parsed from text carry the exact rational that one decimal token
denotes, records produced by the rescanner carry the real-valued Shannon
entropy. All other fields are exactly the attributes `__init__` assigns,
with Python 2 `int` as `Int`, `float` as `ℚ` (exact decimals) and `str` as
`List Char`. -/
structure STRLine (α : Type) where
  seqid : List Char
  start : Int
  «end» : Int
  period : Int
  copynum : ℚ
  consensusSize : Int
  pctmatch : Int
  pctindel : Int
  score : Int
  A : Int
  C : Int
  G : Int
  T : Int
  entropy : α
  motif : List Char
deriving DecidableEq

/-- `STRLine.__init__` after `line.split()`: convert the 15 leading tokens
in order (extra tokens are ignored as Python indexing ignores them); fewer
than 15 tokens (IndexError) or a failing numeric conversion (ValueError) is
a parse failure, modelled as `none`. -/
def parseTokens : List (List Char) → Option (STRLine ℚ)
  | a0 :: a1 :: a2 :: a3 :: a4 :: a5 :: a6 :: a7 :: a8 :: a9 :: a10 :: a11 :: a12 :: a13 :: a14 :: _ =>
    (pyInt a1).bind fun vstart =>
    (pyInt a2).bind fun vend =>
    (pyInt a3).bind fun vperiod =>
    (pyFloat a4).bind fun vcopynum =>
    (pyInt a5).bind fun vconsensus =>
    (pyInt a6).bind fun vpctmatch =>
    (pyInt a7).bind fun vpctindel =>
    (pyInt a8).bind fun vscore =>
    (pyInt a9).bind fun vA =>
    (pyInt a10).bind fun vC =>
    (pyInt a11).bind fun vG =>
    (pyInt a12).bind fun vT =>
    (pyFloat a13).bind fun ventropy =>
    some ⟨a0, vstart, vend, vperiod, vcopynum, vconsensus, vpctmatch, vpctindel,
      vscore, vA, vC, vG, vT, ventropy, a14⟩
  | _ => none

/-- `STRLine(line)`: parse one line of repeat-finder output. -/
def parse (line : List Char) : Option (STRLine ℚ) :=
  parseTokens (splitWs line)

/-- `STRLine.__str__`: tab-join the 15 fields; `entropy` is printed with
`"{0:.2f}".format`, the other fields with `str`. -/
def serialize (r : STRLine ℚ) : List Char :=
  joinTab [r.seqid, strOfInt r.start, strOfInt r.«end», strOfInt r.period,
    strOfFloat r.copynum, strOfInt r.consensusSize, strOfInt r.pctmatch,
    strOfInt r.pctindel, strOfInt r.score, strOfInt r.A, strOfInt r.C,
    strOfInt r.G, strOfInt r.T, format2f r.entropy, r.motif]

/-- `STRLine.is_valid(maxperiod, maxlength, minscore)`. -/
def is_valid {α : Type} (r : STRLine α) (maxperiod maxlength minscore : Int) : Bool :=
  decide (2 ≤ r.period ∧ r.period ≤ maxperiod) &&
    decide (r.«end» - r.start + 1 ≤ maxlength) && decide (minscore ≤ r.score)

/-- `is_valid()` with its default thresholds `6, 150, 30`. -/
def is_validD {α : Type} (r : STRLine α) : Bool :=
  is_valid r 6 150 30

/-- `STRLine.calc_entropy` on base counts `(a, c, g, t)`: fractions of the
total, then `sum(-1.0 * x * log(x, 2))` over the nonzero fractions
(`math.log(x, 2)` is `log x / log 2`, i.e. `Real.logb 2 x`). Python floats
are idealised as real numbers. -/
noncomputable def calcEntropy (a c g t : Int) : ℝ :=
  let total : ℝ := ((a + c + g + t : Int) : ℝ)
  let fractions : List ℝ := [a, c, g, t].map (fun x : Int => (x : ℝ) * 1 / total)
  ((fractions.filter (fun x => x ≠ 0)).map (fun x => -1 * x * Real.logb 2 x)).sum

/-- Python index clamping for slices: a negative index counts from the end,
then the result is clamped into `[0, len]`. -/
def pyIndex (len : Nat) (i : Int) : Nat :=
  let j := if i < 0 then i + len else i
  min (max j 0).toNat len

/-- Python slice `s[a : b]` (step one): silently clamps both bounds to the
string length. -/
def pySlice (s : List Char) (a b : Int) : List Char :=
  let lo := pyIndex s.length a
  let hi := pyIndex s.length b
  (s.drop lo).take (hi - lo)

/-- One regex atom of the interpolated (unescaped) motif: `.` matches any
character, every other character considered here matches itself. This
models the Python pattern `(({0}){{2,}}).format(motif)` for motifs whose
characters are ordinary or the wildcard `.`; the theorems below restrict
their motifs accordingly (`regexSafe`), except where the unescaped
wildcard behaviour itself is at issue. -/
def patChar (p c : Char) : Bool :=
  p == '.' || p == c

/-- Does the motif pattern match the next `|m|` characters of `s`? -/
def patAt : List Char → List Char → Bool
  | [], _ => true
  | _ :: _, [] => false
  | p :: ps, c :: cs => patChar p c && patAt ps cs

/-- Greatest `n` such that the motif pattern matches `n` consecutive blocks
at the head of `s`: the greedy repetition count of `(motif){2,}` anchored at
one position. Fuel first; the guard on the empty motif documents that the
Python code would divide by zero there, while real motifs (whitespace-split
tokens) are never empty. -/
def maxCopiesAux (m : List Char) : Nat → List Char → Nat
  | 0, _ => 0
  | fuel + 1, s =>
    if !m.isEmpty && patAt m s then maxCopiesAux m fuel (s.drop m.length) + 1 else 0

/-- Greedy repetition count of the motif pattern at the head of `s`. -/
def maxCopies (m s : List Char) : Nat :=
  maxCopiesAux m s.length s

/-- `re.finditer` of `((motif){2,})` over `s`: `(offset, length)` of the
leftmost non-overlapping maximal matches in order; `pos` is the offset of
`s` inside the scanned window, fuel first. -/
def scanAux (m : List Char) : Nat → List Char → Nat → List (Nat × Nat)
  | 0, _, _ => []
  | fuel + 1, s, pos =>
    match s with
    | [] => []
    | c :: cs =>
      let n := maxCopies m (c :: cs)
      if 2 ≤ n then
        (pos, n * m.length) :: scanAux m fuel ((c :: cs).drop (n * m.length)) (pos + n * m.length)
      else scanAux m fuel cs (pos + 1)

/-- All matches of `((motif){2,})` in `s`, leftmost first. -/
def strScan (m s : List Char) : List (Nat × Nat) :=
  scanAux m s.length s 0

/-- Count of one character in a string (Python `str.count`). -/
def countCh (c : Char) (s : List Char) : Nat :=
  (s.filter (fun d => d = c)).length

/-- The loop body of `iter_exact_str` for one match `(offset, length)` in
window `w`: the record the generator yields, with `start`, `end`,
`copy_number` (Python 2 integer division `length / len(motif)`),
`pct_match = 100`, `pct_indel = 0`, `score = 2 * length`, the four base
counts of the matched text and its entropy recomputed, while `seqid`,
`period`, `consensus_size` and `motif` stay untouched. -/
noncomputable def refineAt (r : STRLine ℚ) (w : List Char) (om : Nat × Nat) : STRLine ℝ :=
  let newstart : Int := r.start + om.1
  let len : Nat := om.2
  let subseq := (w.drop om.1).take len
  let nA : Int := ((countCh 'A' subseq : Nat) : Int)
  let nC : Int := ((countCh 'C' subseq : Nat) : Int)
  let nG : Int := ((countCh 'G' subseq : Nat) : Int)
  let nT : Int := ((countCh 'T' subseq : Nat) : Int)
  { seqid := r.seqid
    start := newstart
    «end» := newstart - 1 + len
    period := r.period
    copynum := ((len / r.motif.length : Nat) : ℚ)
    consensusSize := r.consensusSize
    pctmatch := 100
    pctindel := 0
    score := 2 * len
    A := nA
    C := nC
    G := nG
    T := nT
    entropy := calcEntropy nA nC nG nT
    motif := r.motif }

/-- The two assertions inside the loop of `iter_exact_str` for one match:
`length % len(motif) == 0` and `subseq.startswith(motif)` (a literal string
prefix test). -/
def assertOk (m w : List Char) (om : Nat × Nat) : Bool :=
  decide (om.2 % m.length = 0) && m.isPrefixOf ((w.drop om.1).take om.2)

/-- `STRLine.iter_exact_str`: slice the candidate window
`genome[seqid][start - 1 : end]` (Python slicing, which silently clamps
out-of-range bounds), find all matches of `((motif){2,})` and yield one
refined record per match. The Python generator mutates and re-yields
`self`; the driver consumes every yield before the generator resumes, so
the observable behaviour is the list of yielded snapshots. A failing
assertion (an `AssertionError`, reachable when the motif holds regex
metacharacters) is modelled as `none`. -/
noncomputable def iter_exact_str (genome : List Char → List Char) (r : STRLine ℚ) :
    Option (List (STRLine ℝ)) :=
  let w := pySlice (genome r.seqid) (r.start - 1) r.«end»
  let ms := strScan r.motif w
  if ms.all (fun om => assertOk r.motif w om) then some (ms.map (refineAt r w)) else none

/-- The counting loop of `lobstrindex`: per raw record one `total`
increment, a rescan, and one `retained` increment per refined sub-record
passing `is_valid()` with default thresholds. -/
noncomputable def lobstrindexLoop (genome : List Char → List Char) :
    List (STRLine ℚ) → Nat → Nat → Option (Nat × Nat)
  | [], total, retained => some (total, retained)
  | r :: rows, total, retained =>
    match iter_exact_str genome r with
    | none => none
    | some subs =>
      lobstrindexLoop genome rows (total + 1)
        (retained + (subs.filter (fun ns => is_validD ns)).length)

/-- Modelled from the spec: the retention report. The driver logs
`percentage(retained, total)` from `jcvi.utils.cbook`, whose code is not
part of this repository; the spec says the driver "reports the retention
ratio as a percentage upon completion", modelled as the rational
`100 * retained / total`. -/
def retentionRatio (retained total : Nat) : ℚ :=
  mkRat (100 * retained) total

/-- The `lobstrindex` filtering loop over the parsed rows of the input bed
file: final `total` and `retained` counters and the reported ratio. -/
noncomputable def lobstrindex (genome : List Char → List Char) (rows : List (STRLine ℚ)) :
    Option (Nat × Nat × ℚ) :=
  (lobstrindexLoop genome rows 0 0).map (fun tr => (tr.1, tr.2, retentionRatio tr.2 tr.1))

/-- Characters with no special meaning in a Python regular expression. -/
def ordinaryChar (c : Char) : Bool :=
  !(['.', '^', '$', '*', '+', '?', '\x7b', '\x7d', '[', ']', '(', ')', '|', '\\'].contains c)

/-- Motifs on which the modelled pattern semantics coincides with the
Python regex built by `iter_exact_str`: every character is either ordinary
or the wildcard `.`. -/
def regexSafe (m : List Char) : Bool :=
  m.all (fun c => c == '.' || ordinaryChar c)

example : strScan "ACG".toList "ACGACGTACGACG".toList = [(0, 6), (7, 6)] := by decide
example : maxCopies "AC".toList "ACACAB".toList = 2 := by decide
example : pySlice "ACGACG".toList 0 100 = "ACGACG".toList := by decide
example : pySlice "ACGACG".toList (-2) 6 = "CG".toList := by decide

/-- `k` consecutive copies of a motif. -/
def repList (m : List Char) : Nat → List Char
  | 0 => []
  | k + 1 => m ++ repList m k

lemma repList_length (m : List Char) (k : Nat) : (repList m k).length = k * m.length := by
  induction k with
  | zero => simp [repList]
  | succ k ih =>
    rw [repList, List.length_append, ih]
    ring

lemma patChar_self (c : Char) : patChar c c = true := by
  simp [patChar]

lemma patAt_length_le : ∀ {m s : List Char}, patAt m s = true → m.length ≤ s.length := by
  intro m
  induction m with
  | nil => intro s _; simp
  | cons p ps ih =>
    intro s h
    cases s with
    | nil => simp [patAt] at h
    | cons c cs =>
      rw [patAt, Bool.and_eq_true] at h
      have := ih h.2
      simp only [List.length_cons]
      omega

lemma patAt_append_self (m t : List Char) : patAt m (m ++ t) = true := by
  induction m with
  | nil => rfl
  | cons p ps ih =>
    rw [List.cons_append, patAt, Bool.and_eq_true]
    exact ⟨patChar_self p, ih⟩

lemma maxCopiesAux_nil_motif (fuel : Nat) (s : List Char) : maxCopiesAux [] fuel s = 0 := by
  cases fuel with
  | zero => rfl
  | succ fuel => simp [maxCopiesAux]

lemma maxCopies_ne_nil {m s : List Char} (h : 1 ≤ maxCopies m s) : m ≠ [] := by
  intro hm
  rw [hm, maxCopies, maxCopiesAux_nil_motif] at h
  omega

lemma maxCopiesAux_mul_le (m : List Char) :
    ∀ (fuel : Nat) (s : List Char), maxCopiesAux m fuel s * m.length ≤ s.length := by
  intro fuel
  induction fuel with
  | zero => intro s; simp [maxCopiesAux]
  | succ fuel ih =>
    intro s
    rw [maxCopiesAux]
    split
    · rename_i hguard
      rw [Bool.and_eq_true] at hguard
      have hp := patAt_length_le hguard.2
      have hd := ih (s.drop m.length)
      rw [List.length_drop] at hd
      rw [Nat.add_mul, one_mul]
      omega
    · simp

lemma maxCopies_mul_le (m s : List Char) : maxCopies m s * m.length ≤ s.length :=
  maxCopiesAux_mul_le m s.length s

lemma maxCopiesAux_congr {m : List Char} {f1 : Nat} : ∀ {f2 : Nat} {s : List Char},
    s.length ≤ f1 → s.length ≤ f2 → maxCopiesAux m f1 s = maxCopiesAux m f2 s := by
  induction f1 with
  | zero =>
    intro f2 s h1 h2
    have hs : s = [] := List.eq_nil_of_length_eq_zero (by omega)
    subst hs
    cases f2 with
    | zero => rfl
    | succ f2 =>
      cases hm : m with
      | nil => rw [maxCopiesAux_nil_motif, maxCopiesAux_nil_motif]
      | cons p ps =>
        show 0 = maxCopiesAux (p :: ps) (f2 + 1) []
        rw [maxCopiesAux]
        rw [if_neg (by simp [patAt])]
  | succ f1 ih =>
    intro f2 s h1 h2
    cases hm : m with
    | nil => rw [maxCopiesAux_nil_motif, maxCopiesAux_nil_motif]
    | cons p ps =>
      cases f2 with
      | zero =>
        have hs : s = [] := List.eq_nil_of_length_eq_zero (by omega)
        subst hs
        show maxCopiesAux (p :: ps) (f1 + 1) [] = 0
        rw [maxCopiesAux]
        rw [if_neg (by simp [patAt])]
      | succ f2 =>
        rw [maxCopiesAux, maxCopiesAux]
        by_cases hg : (!(p :: ps).isEmpty && patAt (p :: ps) s) = true
        · rw [if_pos hg, if_pos hg]
          rw [Bool.and_eq_true] at hg
          have hp := patAt_length_le hg.2
          have hlen : (s.drop (p :: ps).length).length ≤ f1 := by
            rw [List.length_drop]
            simp only [List.length_cons] at hp ⊢
            omega
          have hlen2 : (s.drop (p :: ps).length).length ≤ f2 := by
            rw [List.length_drop]
            simp only [List.length_cons] at hp ⊢
            omega
          rw [hm] at ih
          rw [ih hlen hlen2]
        · rw [if_neg hg, if_neg hg]

lemma maxCopies_repList {m : List Char} (hm : m ≠ []) (k : Nat) :
    maxCopies m (repList m k) = k := by
  have hmlen : 1 ≤ m.length := by
    cases m with
    | nil => exact absurd rfl hm
    | cons c cs => simp
  have haux : ∀ (k fuel : Nat), (repList m k).length ≤ fuel →
      maxCopiesAux m fuel (repList m k) = k := by
    intro k
    induction k with
    | zero =>
      intro fuel hf
      cases fuel with
      | zero => rfl
      | succ fuel =>
        show maxCopiesAux m (fuel + 1) [] = 0
        rw [maxCopiesAux]
        rw [if_neg (by
          obtain ⟨c, cs, rfl⟩ := List.exists_cons_of_ne_nil hm
          simp [patAt])]
    | succ k ih =>
      intro fuel hf
      have hlen : (repList m (k + 1)).length = m.length + (repList m k).length := by
        rw [repList, List.length_append]
      cases fuel with
      | zero =>
        rw [repList_length] at hf
        have : 1 * 1 ≤ (k + 1) * m.length := Nat.mul_le_mul (by omega) hmlen
        omega
      | succ fuel =>
        rw [repList, maxCopiesAux]
        rw [if_pos (by
          rw [Bool.and_eq_true]
          refine ⟨by simp [List.isEmpty_iff, hm], patAt_append_self m _⟩)]
        rw [List.drop_left]
        rw [ih fuel (by
          rw [hlen] at hf
          omega)]
  exact haux k (repList m k).length (le_refl _)

lemma scanAux_nil (m : List Char) (fuel pos : Nat) : scanAux m fuel [] pos = [] := by
  cases fuel <;> rfl

lemma scanAux_mem (m : List Char) : ∀ (fuel : Nat) (s : List Char) (pos : Nat)
    (x : Nat × Nat), s.length ≤ fuel → x ∈ scanAux m fuel s pos →
    (∃ n, 2 ≤ n ∧ x.2 = n * m.length) ∧ pos ≤ x.1 ∧ x.1 + x.2 ≤ pos + s.length := by
  intro fuel
  induction fuel with
  | zero =>
    intro s pos x _ hx
    simp [scanAux] at hx
  | succ fuel ih =>
    intro s pos x hl hx
    cases s with
    | nil => rw [scanAux_nil] at hx; simp at hx
    | cons c cs =>
      rw [List.length_cons] at hl
      simp only [scanAux] at hx
      by_cases hn : 2 ≤ maxCopies m (c :: cs)
      · rw [if_pos hn] at hx
        have hmne : m ≠ [] := maxCopies_ne_nil (show 1 ≤ maxCopies m (c :: cs) by omega)
        have hmlen : 1 ≤ m.length := by
          cases m with
          | nil => exact absurd rfl hmne
          | cons p ps => simp
        have hbound := maxCopies_mul_le m (c :: cs)
        have hP2 : 2 ≤ maxCopies m (c :: cs) * m.length :=
          le_trans (by omega) (Nat.mul_le_mul_right _ hn)
        set P := maxCopies m (c :: cs) * m.length with hPdef
        rcases List.mem_cons.mp hx with rfl | hmem
        · refine ⟨⟨maxCopies m (c :: cs), hn, hPdef⟩, le_refl _, ?_⟩
          simp only [List.length_cons] at hbound ⊢
          omega
        · have hdroplen : ((c :: cs).drop P).length ≤ fuel := by
            rw [List.length_drop]
            simp only [List.length_cons] at hbound ⊢
            omega
          obtain ⟨hex, hge, hle⟩ := ih _ _ x hdroplen hmem
          refine ⟨hex, by omega, ?_⟩
          rw [List.length_drop] at hle
          simp only [List.length_cons] at hbound hle ⊢
          omega
      · rw [if_neg hn] at hx
        obtain ⟨hex, hge, hle⟩ := ih cs (pos + 1) x (by omega) hx
        refine ⟨hex, by omega, by simp only [List.length_cons]; omega⟩

lemma scanAux_sorted (m : List Char) : ∀ (fuel : Nat) (s : List Char) (pos : Nat),
    s.length ≤ fuel →
    List.Pairwise (fun a b : Nat × Nat => a.1 + a.2 ≤ b.1) (scanAux m fuel s pos) := by
  intro fuel
  induction fuel with
  | zero => intro s pos _; simp [scanAux]
  | succ fuel ih =>
    intro s pos hl
    cases s with
    | nil => rw [scanAux_nil]; exact List.Pairwise.nil
    | cons c cs =>
      rw [List.length_cons] at hl
      simp only [scanAux]
      by_cases hn : 2 ≤ maxCopies m (c :: cs)
      · rw [if_pos hn]
        have hmne : m ≠ [] := maxCopies_ne_nil (show 1 ≤ maxCopies m (c :: cs) by omega)
        have hmlen : 1 ≤ m.length := by
          cases m with
          | nil => exact absurd rfl hmne
          | cons p ps => simp
        have hbound := maxCopies_mul_le m (c :: cs)
        have hP2 : 2 ≤ maxCopies m (c :: cs) * m.length :=
          le_trans (by omega) (Nat.mul_le_mul_right _ hn)
        set P := maxCopies m (c :: cs) * m.length with hPdef
        have hdroplen : ((c :: cs).drop P).length ≤ fuel := by
          rw [List.length_drop]
          simp only [List.length_cons] at hbound ⊢
          omega
        refine List.Pairwise.cons ?_ (ih _ _ hdroplen)
        intro y hy
        obtain ⟨-, hge, -⟩ := scanAux_mem m fuel _ _ y hdroplen hy
        exact hge
      · rw [if_neg hn]
        exact ih cs (pos + 1) (by omega)

lemma strScan_mem {m s : List Char} {x : Nat × Nat} (hx : x ∈ strScan m s) :
    (∃ n, 2 ≤ n ∧ x.2 = n * m.length) ∧ x.1 + x.2 ≤ s.length :=
  ⟨(scanAux_mem m s.length s 0 x (le_refl _) hx).1,
    by have := (scanAux_mem m s.length s 0 x (le_refl _) hx).2.2; omega⟩

lemma strScan_sorted (m s : List Char) :
    List.Pairwise (fun a b : Nat × Nat => a.1 + a.2 ≤ b.1) (strScan m s) :=
  scanAux_sorted m s.length s 0 (le_refl _)

lemma strScan_repList {m : List Char} (hm : m ≠ []) {k : Nat} (hk : 2 ≤ k) :
    strScan m (repList m k) = [(0, k * m.length)] := by
  have hmlen : 1 ≤ m.length := by
    cases m with
    | nil => exact absurd rfl hm
    | cons c cs => simp
  have hlen : (repList m k).length = k * m.length := repList_length m k
  have hpos : 1 ≤ (repList m k).length := by
    rw [hlen]
    have := Nat.mul_le_mul hk hmlen
    omega
  obtain ⟨c, cs, hcons⟩ := List.exists_cons_of_ne_nil (List.ne_nil_of_length_pos hpos)
  rw [strScan]
  have hfuel : (repList m k).length = cs.length + 1 := by rw [hcons]; rfl
  rw [hfuel, hcons]
  simp only [scanAux]
  rw [← hcons, maxCopies_repList hm k]
  rw [if_pos hk]
  congr 1
  rw [← hlen, List.drop_length, scanAux_nil]

lemma pyIndex_le_len (len : Nat) (i : Int) : pyIndex len i ≤ len := by
  simp only [pyIndex]
  split_ifs <;> omega

lemma pyIndex_ge_len {len : Nat} {b : Int} (h : (len : Int) ≤ b) : pyIndex len b = len := by
  simp only [pyIndex]
  split_ifs <;> omega

lemma pyIndex_le_self (len : Nat) {b : Int} (h : 0 ≤ b) :
    ((pyIndex len b : Nat) : Int) ≤ b := by
  simp only [pyIndex]
  split_ifs <;> omega

lemma pyIndex_eq_self {len : Nat} {a : Int} (h0 : 0 ≤ a) (h : pyIndex len a < len) :
    ((pyIndex len a : Nat) : Int) = a := by
  simp only [pyIndex] at h ⊢
  split_ifs at h ⊢ <;> omega

lemma pySlice_length_eq (s : List Char) (a b : Int) :
    (pySlice s a b).length =
      min (pyIndex s.length b - pyIndex s.length a) (s.length - pyIndex s.length a) := by
  simp only [pySlice]
  rw [List.length_take, List.length_drop]

lemma pySlice_window_bound {s : List Char} {a b : Int} (h0 : 0 ≤ a) (hb : 0 ≤ b)
    (hw : 1 ≤ (pySlice s a b).length) :
    a + ((pySlice s a b).length : Int) ≤ b := by
  have hlen := pySlice_length_eq s a b
  have h1 := pyIndex_le_len s.length b
  have h2 := pyIndex_le_len s.length a
  have h3 := pyIndex_le_self s.length hb
  have h4 : pyIndex s.length a < s.length := by omega
  have h5 := pyIndex_eq_self h0 h4
  omega

lemma pySlice_start_beyond {s : List Char} {a : Int} (b : Int)
    (h : (s.length : Int) ≤ a) : pySlice s a b = [] := by
  simp only [pySlice]
  rw [pyIndex_ge_len h, List.drop_length, List.take_nil]

lemma pySlice_clamp {s : List Char} (a : Int) {b : Int} (h : (s.length : Int) ≤ b) :
    pySlice s a b = pySlice s a (s.length : Int) := by
  simp only [pySlice]
  rw [pyIndex_ge_len h, pyIndex_ge_len (le_refl _)]

/-- A chromosome of length 6 for the out-of-range examples. -/
def gC1 : List Char → List Char :=
  fun s => if s = "chr1".toList then "ACGACG".toList else []

/-- A record asking for window `[1, 100]` on the length-6 chromosome. -/
def rC1 : STRLine ℚ :=
  ⟨"chr1".toList, 1, 100, 3, 2, 3, 100, 0, 60, 2, 2, 2, 0, 0, "ACG".toList⟩

/-- Claim C1, counterexample: a record whose `end` (100) lies far beyond the
length (6) of its chromosome sequence does not make the rescanner fail —
`iter_exact_str` silently truncates the window (Python slice semantics) and
succeeds, yielding a refined record ending at coordinate 6. -/
theorem c1_counterexample :
    iter_exact_str gC1 rC1 = some [refineAt rC1 "ACGACG".toList (0, 6)] ∧
      (gC1 rC1.seqid).length = 6 ∧ rC1.«end» = 100 ∧
      (refineAt rC1 "ACGACG".toList (0, 6)).«end» = 6 := by
  refine ⟨rfl, rfl, rfl, ?_⟩
  show rC1.start + ((0 : Nat) : Int) - 1 + ((6 : Nat) : Int) = 6
  decide

/-- Claim C1 (amended): out-of-range window coordinates never raise — the
rescanner follows Python slice semantics. When `end` exceeds the sequence
length the behaviour is exactly as if `end` were the sequence length
(silent truncation); when `start - 1` is at or beyond the sequence length
the window is empty and the rescanner yields no record at all. -/
theorem c1_amended :
    (∀ (genome : List Char → List Char) (r : STRLine ℚ),
      ((genome r.seqid).length : Int) ≤ r.«end» →
      iter_exact_str genome r =
        iter_exact_str genome { r with «end» := ((genome r.seqid).length : Int) }) ∧
    (∀ (genome : List Char → List Char) (r : STRLine ℚ),
      ((genome r.seqid).length : Int) ≤ r.start - 1 →
      iter_exact_str genome r = some []) := by
  constructor
  · intro genome r h
    simp only [iter_exact_str]
    rw [pySlice_clamp _ h]
    rfl
  · intro genome r h
    simp only [iter_exact_str]
    rw [pySlice_start_beyond _ h]
    rfl

/-- Claim C1 (amended), witness at concrete inputs. -/
theorem c1_amended_witness :
    iter_exact_str gC1 rC1 =
      iter_exact_str gC1 { rC1 with «end» := ((gC1 rC1.seqid).length : Int) } ∧
    iter_exact_str gC1 { rC1 with start := 10 } = some [] := by
  constructor
  · exact c1_amended.1 gC1 rC1 (by decide)
  · exact c1_amended.2 gC1 { rC1 with start := 10 } (by decide)

/-- A record accepted by the default thresholds: period 3, window `[1, 9]`
(length 9), score 30. -/
def rOk : STRLine ℚ :=
  ⟨"chr1".toList, 1, 9, 3, 3, 3, 100, 0, 30, 3, 3, 3, 0, 0, "ACG".toList⟩

/-- Claim C7: `is_valid(maxperiod, maxlength, minscore)` holds exactly when
`2 <= period <= maxperiod`, the window length `end - start + 1` is at most
`maxlength`, and `score >= minscore`; with the default thresholds `6, 150,
30` it rejects period 1, period 7, window length 151 and score 29, and
accepts period 3 with length 9 and score 30. -/
theorem c7_is_valid :
    (∀ (α : Type) (r : STRLine α) (maxperiod maxlength minscore : Int),
      is_valid r maxperiod maxlength minscore = true ↔
        (2 ≤ r.period ∧ r.period ≤ maxperiod ∧
          r.«end» - r.start + 1 ≤ maxlength ∧ minscore ≤ r.score)) ∧
    is_validD { rOk with period := 1 } = false ∧
    is_validD { rOk with period := 7 } = false ∧
    is_validD { rOk with «end» := 151 } = false ∧
    is_validD { rOk with score := 29 } = false ∧
    is_validD rOk = true := by
  refine ⟨?_, by decide, by decide, by decide, by decide, by decide⟩
  intro α r maxperiod maxlength minscore
  rw [is_valid]
  simp only [Bool.and_eq_true, decide_eq_true_eq]
  tauto

/-- Claim C7, witness: the general criterion applied at the accepted
record and the default thresholds. -/
theorem c7_is_valid_witness :
    is_valid rOk 6 150 30 = true :=
  (c7_is_valid.1 ℚ rOk 6 150 30).mpr (by refine ⟨by decide, by decide, by decide, by decide⟩)

/-- Claim C8: the entropy of the four base counts is invariant under every
permutation of the counts; a homogeneous run `(n, 0, 0, 0)` has entropy 0
and a uniform mixture `(n, n, n, n)` has entropy 2. -/
theorem c8_entropy :
    (∀ a c g t a2 c2 g2 t2 : Int, List.Perm [a, c, g, t] [a2, c2, g2, t2] →
      calcEntropy a c g t = calcEntropy a2 c2 g2 t2) ∧
    (∀ n : Int, 0 < n → calcEntropy n 0 0 0 = 0) ∧
    (∀ n : Int, 0 < n → calcEntropy n n n n = 2) := by
  refine ⟨?_, ?_, ?_⟩
  · intro a c g t a2 c2 g2 t2 hperm
    have htot : a + c + g + t = a2 + c2 + g2 + t2 := by
      have hs := hperm.sum_eq
      simp only [List.sum_cons, List.sum_nil] at hs
      omega
    simp only [calcEntropy, htot]
    have hmap := hperm.map (fun x : Int => (x : ℝ) * 1 / ((a2 + c2 + g2 + t2 : Int) : ℝ))
    have hfil := hmap.filter (fun x : ℝ => x ≠ 0)
    have hfin := hfil.map (fun x : ℝ => -1 * x * Real.logb 2 x)
    exact hfin.sum_eq
  · intro n hn
    have hne : ((n : ℤ) : ℝ) ≠ 0 := by
      exact_mod_cast hn.ne'
    have htot : ((n + 0 + 0 + 0 : ℤ) : ℝ) = (n : ℝ) := by push_cast; ring
    have h1 : (n : ℝ) * 1 / (n : ℝ) = 1 := by field_simp
    have h0 : ((0 : ℤ) : ℝ) * 1 / (n : ℝ) = 0 := by
      push_cast
      ring
    simp only [calcEntropy, List.map_cons, List.map_nil, htot, h1, h0]
    rw [List.filter_cons, if_pos (by norm_num)]
    rw [List.filter_cons, if_neg (by norm_num)]
    rw [List.filter_cons, if_neg (by norm_num)]
    rw [List.filter_cons, if_neg (by norm_num)]
    simp [Real.logb_one]
  · intro n hn
    have hne : ((n : ℤ) : ℝ) ≠ 0 := by
      exact_mod_cast hn.ne'
    have htot : ((n + n + n + n : ℤ) : ℝ) = 4 * (n : ℝ) := by push_cast; ring
    have h14 : (n : ℝ) * 1 / (4 * (n : ℝ)) = 1 / 4 := by
      field_simp
      ring
    have hlog2 : Real.log 2 ≠ 0 := ne_of_gt (Real.log_pos (by norm_num))
    have hlog : Real.logb 2 ((1 : ℝ) / 4) = -2 := by
      rw [show (1 / 4 : ℝ) = (2 : ℝ) ^ (-2 : ℤ) by norm_num]
      rw [Real.logb, Real.log_zpow]
      push_cast
      field_simp
    simp only [calcEntropy, List.map_cons, List.map_nil, htot, h14]
    rw [List.filter_cons, if_pos (by norm_num)]
    rw [List.filter_cons, if_pos (by norm_num)]
    rw [List.filter_cons, if_pos (by norm_num)]
    rw [List.filter_cons, if_pos (by norm_num)]
    rw [List.filter_nil]
    simp only [List.map_cons, List.map_nil, List.sum_cons, List.sum_nil, hlog]
    ring

/-- Claim C8, witness: the permutation invariance and the two special
values at concrete counts. -/
theorem c8_entropy_witness :
    calcEntropy 1 2 3 4 = calcEntropy 4 3 2 1 ∧
      calcEntropy 3 0 0 0 = 0 ∧ calcEntropy 5 5 5 5 = 2 :=
  ⟨c8_entropy.1 1 2 3 4 4 3 2 1 (by decide), c8_entropy.2.1 3 (by decide),
    c8_entropy.2.2 5 (by decide)⟩

/-- The rescan results of every raw record, `none` as soon as one rescan
fails. -/
noncomputable def rescanAll (genome : List Char → List Char) :
    List (STRLine ℚ) → Option (List (List (STRLine ℝ)))
  | [] => some []
  | r :: rows =>
    match iter_exact_str genome r with
    | none => none
    | some subs => (rescanAll genome rows).map (fun ls => subs :: ls)

lemma lobstrindexLoop_spec (genome : List Char → List Char) :
    ∀ (rows : List (STRLine ℚ)) (ls : List (List (STRLine ℝ))) (total retained : Nat),
    rescanAll genome rows = some ls →
    lobstrindexLoop genome rows total retained =
      some (total + rows.length,
        retained + (ls.map (fun subs => (subs.filter (fun ns => is_validD ns)).length)).sum) := by
  intro rows
  induction rows with
  | nil =>
    intro ls total retained h
    have hls : ls = [] := by
      rw [rescanAll] at h
      exact (Option.some_injective _ h).symm
    subst hls
    simp [lobstrindexLoop]
  | cons r rows ih =>
    intro ls total retained h
    rw [rescanAll] at h
    rcases hit : iter_exact_str genome r with _ | subs <;> rw [hit] at h
    · simp at h
    · rcases hrest : rescanAll genome rows with _ | ls2 <;> rw [hrest] at h
      · simp at h
      · simp only [Option.map_some'] at h
        have hls := Option.some_injective _ h
        subst hls
        simp only [lobstrindexLoop, hit]
        rw [ih ls2 (total + 1) _ hrest]
        simp only [List.length_cons, List.map_cons, List.sum_cons]
        rw [Option.some.injEq, Prod.mk.injEq]
        exact ⟨by omega, by omega⟩

/-- A chromosome holding two clean runs of five `ACG` copies separated by
one mismatched base. -/
def gC2 : List Char → List Char :=
  fun s => if s = "chr1".toList then "ACGACGACGACGACGTACGACGACGACGACG".toList else []

/-- The raw record covering that whole 31-base window. -/
def rC2 : STRLine ℚ :=
  ⟨"chr1".toList, 1, 31, 3, 10, 3, 100, 0, 62, 10, 10, 10, 1, 0, "ACG".toList⟩

/-- Claim C2, counterexample: one raw record whose rescan produces two
refined sub-records (both valid). The driver reports `total = 1` — it
counts raw records, not refined sub-records as the claim states — together
with `retained = 2` and a retention ratio of 200 percent. -/
theorem c2_counterexample :
    lobstrindex gC2 [rC2] = some (1, 2, 200) ∧
      (iter_exact_str gC2 rC2).map List.length = some 2 := by
  exact ⟨rfl, rfl⟩

/-- Claim C2 (amended): over any input stream whose rescans all succeed,
the driver returns `total` equal to the number of raw records (one
increment per raw record, not per refined sub-record), `retained` equal to
the number of refined sub-records that pass `is_valid()` with default
thresholds, and reports `100 * retained / total` as the retention ratio. -/
theorem c2_amended (genome : List Char → List Char) (rows : List (STRLine ℚ))
    (ls : List (List (STRLine ℝ))) (h : rescanAll genome rows = some ls) :
    lobstrindex genome rows =
      some (rows.length,
        (ls.map (fun subs => (subs.filter (fun ns => is_validD ns)).length)).sum,
        retentionRatio
          (ls.map (fun subs => (subs.filter (fun ns => is_validD ns)).length)).sum
          rows.length) := by
  rw [lobstrindex, lobstrindexLoop_spec genome rows ls 0 0 h]
  rw [Option.map_some']
  simp

/-- Claim C2 (amended), witness at the concrete two-run input. -/
theorem c2_amended_witness :
    rescanAll gC2 [rC2] =
      some [[refineAt rC2 "ACGACGACGACGACGTACGACGACGACGACG".toList (0, 15),
        refineAt rC2 "ACGACGACGACGACGTACGACGACGACGACG".toList (16, 15)]] ∧
    lobstrindex gC2 [rC2] = some (1, 2, retentionRatio 2 1) := by
  refine ⟨rfl, ?_⟩
  have h := c2_amended gC2 [rC2]
    [[refineAt rC2 "ACGACGACGACGACGTACGACGACGACGACG".toList (0, 15),
      refineAt rC2 "ACGACGACGACGACGTACGACGACGACGACG".toList (16, 15)]] rfl
  have h2 : (([[refineAt rC2 "ACGACGACGACGACGTACGACGACGACGACG".toList (0, 15),
      refineAt rC2 "ACGACGACGACGACGTACGACGACGACGACG".toList (16, 15)]].map
        (fun subs => (subs.filter (fun ns => is_validD ns)).length)).sum) = 2 := rfl
  rw [h2] at h
  exact h

lemma refineAt_start (r : STRLine ℚ) (w : List Char) (om : Nat × Nat) :
    (refineAt r w om).start = r.start + (om.1 : Int) := rfl

lemma refineAt_end (r : STRLine ℚ) (w : List Char) (om : Nat × Nat) :
    (refineAt r w om).«end» = r.start + (om.1 : Int) - 1 + (om.2 : Int) := rfl

lemma refineAt_copynum (r : STRLine ℚ) (w : List Char) (om : Nat × Nat) :
    (refineAt r w om).copynum = ((om.2 / r.motif.length : Nat) : ℚ) := rfl

lemma refineAt_score (r : STRLine ℚ) (w : List Char) (om : Nat × Nat) :
    (refineAt r w om).score = 2 * (om.2 : Int) := rfl

lemma refineAt_motif (r : STRLine ℚ) (w : List Char) (om : Nat × Nat) :
    (refineAt r w om).motif = r.motif := rfl

/-- The two-copy window for the exact-repeat witnesses. -/
def gC3 : List Char → List Char :=
  fun s => if s = "chrA".toList then "ACAC".toList else []

/-- A record whose window `[1, 4]` holds exactly two copies of `AC`. -/
def rC3 : STRLine ℚ :=
  ⟨"chrA".toList, 1, 4, 2, 2, 2, 100, 0, 8, 2, 2, 0, 0, 0, "AC".toList⟩

/-- Claim C3: when the candidate window consists of exactly `k ≥ 2` exact
copies of the (regex-plain) motif with no flanking characters, the
rescanner yields exactly one refined record spanning the whole window,
with `copy_number = k`, `pct_match = 100` and `pct_indel = 0`. -/
theorem c3_exact_copies (genome : List Char → List Char) (r : STRLine ℚ) (k : Nat)
    (hsafe : regexSafe r.motif = true) (hm : r.motif ≠ []) (hk : 2 ≤ k)
    (hwin : pySlice (genome r.seqid) (r.start - 1) r.«end» = repList r.motif k)
    (hend : r.«end» = r.start - 1 + ((k * r.motif.length : Nat) : Int)) :
    ∃ x, iter_exact_str genome r = some [x] ∧ x.copynum = (k : ℚ) ∧
      x.start = r.start ∧ x.«end» = r.«end» ∧ x.pctmatch = 100 ∧ x.pctindel = 0 := by
  have hmlen : 0 < r.motif.length := by
    cases hmm : r.motif with
    | nil => exact absurd hmm hm
    | cons p ps => simp
  simp only [iter_exact_str]
  rw [hwin, strScan_repList hm hk]
  have hassert : assertOk r.motif (repList r.motif k) (0, k * r.motif.length) = true := by
    rw [assertOk, Bool.and_eq_true]
    constructor
    · simp [Nat.mul_mod_left]
    · rw [List.drop_zero, ← repList_length, List.take_length]
      rw [List.isPrefixOf_iff_prefix]
      have hk1 : ∃ k2, k = k2 + 1 := ⟨k - 1, by omega⟩
      obtain ⟨k2, rfl⟩ := hk1
      rw [repList]
      exact List.prefix_append _ _
  rw [if_pos (by simp [hassert])]
  refine ⟨refineAt r (repList r.motif k) (0, k * r.motif.length), by simp, ?_, ?_, ?_, rfl, rfl⟩
  · rw [refineAt_copynum]
    simp only
    rw [Nat.mul_div_cancel _ hmlen]
  · rw [refineAt_start]
    simp
  · rw [refineAt_end, hend]
    simp

/-- Claim C3, witness: the window `ACAC` is two exact copies of `AC`. -/
theorem c3_exact_copies_witness :
    ∃ x, iter_exact_str gC3 rC3 = some [x] ∧ x.copynum = ((2 : Nat) : ℚ) ∧
      x.start = rC3.start ∧ x.«end» = rC3.«end» ∧ x.pctmatch = 100 ∧ x.pctindel = 0 :=
  c3_exact_copies gC3 rC3 2 (by decide) (by decide) (by decide) (by decide) (by decide)

/-- Claim C9: every record the rescanner yields carries the `seqid`,
`period`, `consensus_size` and `motif` of the original input record
unchanged. -/
theorem c9_fields_preserved (genome : List Char → List Char) (r : STRLine ℚ)
    (l : List (STRLine ℝ)) (h : iter_exact_str genome r = some l) :
    ∀ x ∈ l, x.seqid = r.seqid ∧ x.period = r.period ∧
      x.consensusSize = r.consensusSize ∧ x.motif = r.motif := by
  intro x hx
  simp only [iter_exact_str] at h
  split_ifs at h with hcond
  have hl := Option.some_injective _ h
  rw [← hl] at hx
  obtain ⟨om, hom, rfl⟩ := List.mem_map.mp hx
  exact ⟨rfl, rfl, rfl, rfl⟩

/-- Claim C9, witness: the single record yielded on the window `ACAC`. -/
theorem c9_fields_preserved_witness :
    (refineAt rC3 "ACAC".toList (0, 4)).seqid = rC3.seqid ∧
      (refineAt rC3 "ACAC".toList (0, 4)).period = rC3.period ∧
      (refineAt rC3 "ACAC".toList (0, 4)).consensusSize = rC3.consensusSize ∧
      (refineAt rC3 "ACAC".toList (0, 4)).motif = rC3.motif :=
  c9_fields_preserved gC3 rC3 [refineAt rC3 "ACAC".toList (0, 4)] rfl
    (refineAt rC3 "ACAC".toList (0, 4)) (List.mem_singleton.mpr rfl)

/-- Claim C10: every record yielded by the rescanner (on a regex-plain,
nonempty motif and a well-formed coordinate pair) satisfies
`end - start + 1 = copy_number * len(motif)`, `copy_number ≥ 2`,
`score = 2 * (end - start + 1)` and lies inside the original candidate
window; successive records are pairwise disjoint with strictly increasing
starts. -/
theorem c10_invariants (genome : List Char → List Char) (r : STRLine ℚ)
    (l : List (STRLine ℝ)) (hm : r.motif ≠ []) (hsafe : regexSafe r.motif = true)
    (hstart : 1 ≤ r.start) (hend0 : 0 ≤ r.«end»)
    (hiter : iter_exact_str genome r = some l) :
    (∀ x ∈ l,
      ((x.«end» - x.start + 1 : Int) : ℚ) = x.copynum * ((x.motif.length : Nat) : ℚ) ∧
      (2 : ℚ) ≤ x.copynum ∧
      x.score = 2 * (x.«end» - x.start + 1) ∧
      r.start ≤ x.start ∧ x.«end» ≤ r.«end») ∧
    List.Pairwise (fun a b : STRLine ℝ => a.«end» < b.start) l ∧
    List.Pairwise (fun a b : STRLine ℝ => a.start < b.start) l := by
  have hmlen : 1 ≤ r.motif.length := by
    cases hmm : r.motif with
    | nil => exact absurd hmm hm
    | cons p ps => simp
  simp only [iter_exact_str] at hiter
  split_ifs at hiter with hcond
  have hl := Option.some_injective _ hiter
  constructor
  · intro x hx
    rw [← hl] at hx
    obtain ⟨om, hom, rfl⟩ := List.mem_map.mp hx
    obtain ⟨⟨n, hn2, hn⟩, hbound⟩ := strScan_mem hom
    have hdiv : om.2 / r.motif.length = n := by
      rw [hn, Nat.mul_div_cancel _ (by omega)]
    have hl2 : 2 ≤ om.2 := by
      rw [hn]
      calc 2 = 2 * 1 := rfl
        _ ≤ n * r.motif.length := Nat.mul_le_mul hn2 hmlen
    have hw1 : 1 ≤ (pySlice (genome r.seqid) (r.start - 1) r.«end»).length := by omega
    have hwin := pySlice_window_bound (by omega) hend0 hw1
    refine ⟨?_, ?_, ?_, ?_, ?_⟩
    · rw [refineAt_end, refineAt_start, refineAt_copynum, refineAt_motif, hdiv, hn]
      push_cast
      ring
    · rw [refineAt_copynum, hdiv]
      exact_mod_cast hn2
    · rw [refineAt_score, refineAt_end, refineAt_start]
      ring
    · rw [refineAt_start]
      omega
    · rw [refineAt_end]
      omega
  · have hsorted := strScan_sorted r.motif (pySlice (genome r.seqid) (r.start - 1) r.«end»)
    constructor
    · rw [← hl]
      refine List.Pairwise.map _ ?_ hsorted
      intro a b hab
      rw [refineAt_end, refineAt_start]
      omega
    · rw [← hl]
      have hstrong : List.Pairwise
          (fun a b : Nat × Nat => a.1 + a.2 ≤ b.1 ∧ 1 ≤ a.2)
          (strScan r.motif (pySlice (genome r.seqid) (r.start - 1) r.«end»)) := by
        refine List.Pairwise.imp_of_mem ?_ hsorted
        intro a b ha hb hab
        obtain ⟨⟨n, hn2, hn⟩, -⟩ := strScan_mem ha
        refine ⟨hab, ?_⟩
        rw [hn]
        calc 1 = 1 * 1 := rfl
          _ ≤ n * r.motif.length := Nat.mul_le_mul (by omega) hmlen
      refine List.Pairwise.map _ ?_ hstrong
      intro a b hab
      rw [refineAt_start, refineAt_start]
      omega

/-- Claim C10, witness: the two disjoint runs of the 31-base window. -/
theorem c10_invariants_witness :
    List.Pairwise (fun a b : STRLine ℝ => a.«end» < b.start)
      [refineAt rC2 "ACGACGACGACGACGTACGACGACGACGACG".toList (0, 15),
        refineAt rC2 "ACGACGACGACGACGTACGACGACGACGACG".toList (16, 15)] ∧
    (2 : ℚ) ≤ (refineAt rC2 "ACGACGACGACGACGTACGACGACGACGACG".toList (0, 15)).copynum := by
  have h := c10_invariants gC2 rC2
    [refineAt rC2 "ACGACGACGACGACGTACGACGACGACGACG".toList (0, 15),
      refineAt rC2 "ACGACGACGACGACGTACGACGACGACGACG".toList (16, 15)]
    (by decide) (by decide) (by decide) (by decide) rfl
  exact ⟨h.2.1, (h.1 _ (by simp)).2.1⟩

/-- A chromosome on which the unescaped wildcard in a motif bites. -/
def gC4 : List Char → List Char :=
  fun s => if s = "chr1".toList then "ABAC".toList else []

/-- A record whose motif `A.` holds the regex metacharacter `.`. -/
def rC4 : STRLine ℚ :=
  ⟨"chr1".toList, 1, 4, 2, 2, 2, 100, 0, 8, 2, 1, 0, 0, 0, "A.".toList⟩

/-- Claim C4, evaluation at the failing input: the motif `A.` is
interpolated into the pattern unescaped, so `.` matches any character; on
the window `ABAC` the pattern matches the whole window although it is not
a literal repeat of `A.`, and the `subseq.startswith(motif)` assertion
fails — `iter_exact_str` raises an `AssertionError` (modelled as `none`)
instead of the assertions being unreachable. -/
theorem c4_assertion_failure :
    iter_exact_str gC4 rC4 = none ∧
      strScan "A.".toList "ABAC".toList = [(0, 4)] ∧
      ("A.".toList).isPrefixOf "ABAC".toList = false := by
  exact ⟨rfl, rfl, rfl⟩

set_option maxHeartbeats 4000000 in
lemma parseTokens_isSome_full (a0 a1 a2 a3 a4 a5 a6 a7 a8 a9 a10 a11 a12 a13 a14 : List Char)
    (rest : List (List Char)) :
    (parseTokens (a0 :: a1 :: a2 :: a3 :: a4 :: a5 :: a6 :: a7 :: a8 :: a9 :: a10 :: a11 ::
      a12 :: a13 :: a14 :: rest)).isSome = true ↔
      ((pyInt a1).isSome = true ∧ (pyInt a2).isSome = true ∧ (pyInt a3).isSome = true ∧
        (pyFloat a4).isSome = true ∧ (pyInt a5).isSome = true ∧ (pyInt a6).isSome = true ∧
        (pyInt a7).isSome = true ∧ (pyInt a8).isSome = true ∧ (pyInt a9).isSome = true ∧
        (pyInt a10).isSome = true ∧ (pyInt a11).isSome = true ∧ (pyInt a12).isSome = true ∧
        (pyFloat a13).isSome = true) := by
  simp only [parseTokens]
  rcases h1 : pyInt a1 with _ | v1
  · simp only [h1, Option.none_bind, Option.isSome_none]
    constructor
    · intro hc; exact Bool.noConfusion hc
    · rintro ⟨hc, -⟩; exact Bool.noConfusion hc
  simp only [h1, Option.some_bind, Option.isSome_some, eq_self_iff_true, true_and]
  rcases h2 : pyInt a2 with _ | v2
  · simp only [h2, Option.none_bind, Option.isSome_none]
    constructor
    · intro hc; exact Bool.noConfusion hc
    · intro hc; exact Bool.noConfusion hc.1
  simp only [h2, Option.some_bind, Option.isSome_some, eq_self_iff_true, true_and]
  rcases h3 : pyInt a3 with _ | v3
  · simp only [h3, Option.none_bind, Option.isSome_none]
    constructor
    · intro hc; exact Bool.noConfusion hc
    · intro hc; exact Bool.noConfusion hc.1
  simp only [h3, Option.some_bind, Option.isSome_some, eq_self_iff_true, true_and]
  rcases h4 : pyFloat a4 with _ | v4
  · simp only [h4, Option.none_bind, Option.isSome_none]
    constructor
    · intro hc; exact Bool.noConfusion hc
    · intro hc; exact Bool.noConfusion hc.1
  simp only [h4, Option.some_bind, Option.isSome_some, eq_self_iff_true, true_and]
  rcases h5 : pyInt a5 with _ | v5
  · simp only [h5, Option.none_bind, Option.isSome_none]
    constructor
    · intro hc; exact Bool.noConfusion hc
    · intro hc; exact Bool.noConfusion hc.1
  simp only [h5, Option.some_bind, Option.isSome_some, eq_self_iff_true, true_and]
  rcases h6 : pyInt a6 with _ | v6
  · simp only [h6, Option.none_bind, Option.isSome_none]
    constructor
    · intro hc; exact Bool.noConfusion hc
    · intro hc; exact Bool.noConfusion hc.1
  simp only [h6, Option.some_bind, Option.isSome_some, eq_self_iff_true, true_and]
  rcases h7 : pyInt a7 with _ | v7
  · simp only [h7, Option.none_bind, Option.isSome_none]
    constructor
    · intro hc; exact Bool.noConfusion hc
    · intro hc; exact Bool.noConfusion hc.1
  simp only [h7, Option.some_bind, Option.isSome_some, eq_self_iff_true, true_and]
  rcases h8 : pyInt a8 with _ | v8
  · simp only [h8, Option.none_bind, Option.isSome_none]
    constructor
    · intro hc; exact Bool.noConfusion hc
    · intro hc; exact Bool.noConfusion hc.1
  simp only [h8, Option.some_bind, Option.isSome_some, eq_self_iff_true, true_and]
  rcases h9 : pyInt a9 with _ | v9
  · simp only [h9, Option.none_bind, Option.isSome_none]
    constructor
    · intro hc; exact Bool.noConfusion hc
    · intro hc; exact Bool.noConfusion hc.1
  simp only [h9, Option.some_bind, Option.isSome_some, eq_self_iff_true, true_and]
  rcases h10 : pyInt a10 with _ | v10
  · simp only [h10, Option.none_bind, Option.isSome_none]
    constructor
    · intro hc; exact Bool.noConfusion hc
    · intro hc; exact Bool.noConfusion hc.1
  simp only [h10, Option.some_bind, Option.isSome_some, eq_self_iff_true, true_and]
  rcases h11 : pyInt a11 with _ | v11
  · simp only [h11, Option.none_bind, Option.isSome_none]
    constructor
    · intro hc; exact Bool.noConfusion hc
    · intro hc; exact Bool.noConfusion hc.1
  simp only [h11, Option.some_bind, Option.isSome_some, eq_self_iff_true, true_and]
  rcases h12 : pyInt a12 with _ | v12
  · simp only [h12, Option.none_bind, Option.isSome_none]
    constructor
    · intro hc; exact Bool.noConfusion hc
    · intro hc; exact Bool.noConfusion hc.1
  simp only [h12, Option.some_bind, Option.isSome_some, eq_self_iff_true, true_and]
  rcases h13 : pyFloat a13 with _ | v13
  · simp only [h13, Option.none_bind, Option.isSome_none]
  simp only [h13, Option.some_bind, Option.isSome_some, eq_self_iff_true, true_and]

lemma parseTokens_isSome_iff (ts : List (List Char)) :
    (parseTokens ts).isSome = true ↔
      (15 ≤ ts.length ∧
        (pyInt (ts.getD 1 [])).isSome = true ∧ (pyInt (ts.getD 2 [])).isSome = true ∧
        (pyInt (ts.getD 3 [])).isSome = true ∧ (pyFloat (ts.getD 4 [])).isSome = true ∧
        (pyInt (ts.getD 5 [])).isSome = true ∧ (pyInt (ts.getD 6 [])).isSome = true ∧
        (pyInt (ts.getD 7 [])).isSome = true ∧ (pyInt (ts.getD 8 [])).isSome = true ∧
        (pyInt (ts.getD 9 [])).isSome = true ∧ (pyInt (ts.getD 10 [])).isSome = true ∧
        (pyInt (ts.getD 11 [])).isSome = true ∧ (pyInt (ts.getD 12 [])).isSome = true ∧
        (pyFloat (ts.getD 13 [])).isSome = true) := by
  rcases ts with _ | ⟨a0, ts⟩
  · constructor
    · intro hc
      rw [show parseTokens [] = none from rfl] at hc
      exact Bool.noConfusion hc
    · rintro ⟨hl, -⟩
      simp at hl
  rcases ts with _ | ⟨a1, ts⟩
  · constructor
    · intro hc
      rw [show parseTokens [a0] = none from rfl] at hc
      exact Bool.noConfusion hc
    · rintro ⟨hl, -⟩
      simp at hl
  rcases ts with _ | ⟨a2, ts⟩
  · constructor
    · intro hc
      rw [show parseTokens [a0, a1] = none from rfl] at hc
      exact Bool.noConfusion hc
    · rintro ⟨hl, -⟩
      simp at hl
  rcases ts with _ | ⟨a3, ts⟩
  · constructor
    · intro hc
      rw [show parseTokens [a0, a1, a2] = none from rfl] at hc
      exact Bool.noConfusion hc
    · rintro ⟨hl, -⟩
      simp at hl
  rcases ts with _ | ⟨a4, ts⟩
  · constructor
    · intro hc
      rw [show parseTokens [a0, a1, a2, a3] = none from rfl] at hc
      exact Bool.noConfusion hc
    · rintro ⟨hl, -⟩
      simp at hl
  rcases ts with _ | ⟨a5, ts⟩
  · constructor
    · intro hc
      rw [show parseTokens [a0, a1, a2, a3, a4] = none from rfl] at hc
      exact Bool.noConfusion hc
    · rintro ⟨hl, -⟩
      simp at hl
  rcases ts with _ | ⟨a6, ts⟩
  · constructor
    · intro hc
      rw [show parseTokens [a0, a1, a2, a3, a4, a5] = none from rfl] at hc
      exact Bool.noConfusion hc
    · rintro ⟨hl, -⟩
      simp at hl
  rcases ts with _ | ⟨a7, ts⟩
  · constructor
    · intro hc
      rw [show parseTokens [a0, a1, a2, a3, a4, a5, a6] = none from rfl] at hc
      exact Bool.noConfusion hc
    · rintro ⟨hl, -⟩
      simp at hl
  rcases ts with _ | ⟨a8, ts⟩
  · constructor
    · intro hc
      rw [show parseTokens [a0, a1, a2, a3, a4, a5, a6, a7] = none from rfl] at hc
      exact Bool.noConfusion hc
    · rintro ⟨hl, -⟩
      simp at hl
  rcases ts with _ | ⟨a9, ts⟩
  · constructor
    · intro hc
      rw [show parseTokens [a0, a1, a2, a3, a4, a5, a6, a7, a8] = none from rfl] at hc
      exact Bool.noConfusion hc
    · rintro ⟨hl, -⟩
      simp at hl
  rcases ts with _ | ⟨a10, ts⟩
  · constructor
    · intro hc
      rw [show parseTokens [a0, a1, a2, a3, a4, a5, a6, a7, a8, a9] = none from rfl] at hc
      exact Bool.noConfusion hc
    · rintro ⟨hl, -⟩
      simp at hl
  rcases ts with _ | ⟨a11, ts⟩
  · constructor
    · intro hc
      rw [show parseTokens [a0, a1, a2, a3, a4, a5, a6, a7, a8, a9, a10] = none from rfl] at hc
      exact Bool.noConfusion hc
    · rintro ⟨hl, -⟩
      simp at hl
  rcases ts with _ | ⟨a12, ts⟩
  · constructor
    · intro hc
      rw [show parseTokens [a0, a1, a2, a3, a4, a5, a6, a7, a8, a9, a10, a11] = none from rfl] at hc
      exact Bool.noConfusion hc
    · rintro ⟨hl, -⟩
      simp at hl
  rcases ts with _ | ⟨a13, ts⟩
  · constructor
    · intro hc
      rw [show parseTokens [a0, a1, a2, a3, a4, a5, a6, a7, a8, a9, a10, a11, a12] = none from rfl] at hc
      exact Bool.noConfusion hc
    · rintro ⟨hl, -⟩
      simp at hl
  rcases ts with _ | ⟨a14, ts⟩
  · constructor
    · intro hc
      rw [show parseTokens [a0, a1, a2, a3, a4, a5, a6, a7, a8, a9, a10, a11, a12, a13] = none from rfl] at hc
      exact Bool.noConfusion hc
    · rintro ⟨hl, -⟩
      simp at hl
  rw [parseTokens_isSome_full]
  constructor
  · intro h
    refine ⟨?_, h⟩
    simp only [List.length_cons]
    omega
  · rintro ⟨-, h⟩
    exact h

/-- Claim C6: `parse` fails exactly when the line splits into fewer than 15
whitespace-separated tokens or one of the numeric fields fails to parse as its
declared type (`int` for start, end, period, consensus size, pctmatch,
pctindel, score, A, C, G, T; `float` for copy number and entropy); and a line
with more than 15 tokens — here a concrete 16-token line — parses
successfully, the extra tokens being ignored. -/
theorem c6_parse_iff :
    (∀ line : List Char,
        (parse line).isSome = false ↔
          ((splitWs line).length < 15 ∨
            (pyInt ((splitWs line).getD 1 [])).isSome = false ∨
            (pyInt ((splitWs line).getD 2 [])).isSome = false ∨
            (pyInt ((splitWs line).getD 3 [])).isSome = false ∨
            (pyFloat ((splitWs line).getD 4 [])).isSome = false ∨
            (pyInt ((splitWs line).getD 5 [])).isSome = false ∨
            (pyInt ((splitWs line).getD 6 [])).isSome = false ∨
            (pyInt ((splitWs line).getD 7 [])).isSome = false ∨
            (pyInt ((splitWs line).getD 8 [])).isSome = false ∨
            (pyInt ((splitWs line).getD 9 [])).isSome = false ∨
            (pyInt ((splitWs line).getD 10 [])).isSome = false ∨
            (pyInt ((splitWs line).getD 11 [])).isSome = false ∨
            (pyInt ((splitWs line).getD 12 [])).isSome = false ∨
            (pyFloat ((splitWs line).getD 13 [])).isSome = false)) ∧
      (parse ("chr1 1 9 3 9.7 3 100 0 30 3 3 3 0 1.90 ACG extra".toList)).isSome = true := by
  constructor
  · intro line
    rw [show parse line = parseTokens (splitWs line) from rfl]
    rw [← Bool.not_eq_true, parseTokens_isSome_iff]
    simp only [not_and_or, not_le, Bool.not_eq_true]
  · decide

lemma strOfInt_token (n : Int) :
    strOfInt n ≠ [] ∧ (strOfInt n).all (fun c => !pyIsSpace c) = true := by
  have hd : (natDigits n.natAbs).all (fun c => !pyIsSpace c) = true := by
    refine allImp (fun c hc => ?_) (natDigits_all_digits n.natAbs)
    rw [isDigitCh_not_space hc]
    rfl
  rw [strOfInt]
  split
  · refine ⟨List.cons_ne_nil _ _, ?_⟩
    rw [List.all_cons, Bool.and_eq_true]
    exact ⟨by decide, hd⟩
  · exact ⟨natDigits_ne_nil _, hd⟩

set_option maxHeartbeats 4000000 in
lemma parseTokens_some_inv {ts : List (List Char)} {r : STRLine ℚ}
    (h : parseTokens ts = some r) :
    r.seqid ∈ ts ∧ r.motif ∈ ts ∧ ∃ t ∈ ts, pyFloat t = some r.copynum := by
  rcases ts with _ | ⟨a0, ts⟩
  · rw [show parseTokens [] = none from rfl] at h
    exact Option.noConfusion h
  rcases ts with _ | ⟨a1, ts⟩
  · rw [show parseTokens [a0] = none from rfl] at h
    exact Option.noConfusion h
  rcases ts with _ | ⟨a2, ts⟩
  · rw [show parseTokens [a0, a1] = none from rfl] at h
    exact Option.noConfusion h
  rcases ts with _ | ⟨a3, ts⟩
  · rw [show parseTokens [a0, a1, a2] = none from rfl] at h
    exact Option.noConfusion h
  rcases ts with _ | ⟨a4, ts⟩
  · rw [show parseTokens [a0, a1, a2, a3] = none from rfl] at h
    exact Option.noConfusion h
  rcases ts with _ | ⟨a5, ts⟩
  · rw [show parseTokens [a0, a1, a2, a3, a4] = none from rfl] at h
    exact Option.noConfusion h
  rcases ts with _ | ⟨a6, ts⟩
  · rw [show parseTokens [a0, a1, a2, a3, a4, a5] = none from rfl] at h
    exact Option.noConfusion h
  rcases ts with _ | ⟨a7, ts⟩
  · rw [show parseTokens [a0, a1, a2, a3, a4, a5, a6] = none from rfl] at h
    exact Option.noConfusion h
  rcases ts with _ | ⟨a8, ts⟩
  · rw [show parseTokens [a0, a1, a2, a3, a4, a5, a6, a7] = none from rfl] at h
    exact Option.noConfusion h
  rcases ts with _ | ⟨a9, ts⟩
  · rw [show parseTokens [a0, a1, a2, a3, a4, a5, a6, a7, a8] = none from rfl] at h
    exact Option.noConfusion h
  rcases ts with _ | ⟨a10, ts⟩
  · rw [show parseTokens [a0, a1, a2, a3, a4, a5, a6, a7, a8, a9] = none from rfl] at h
    exact Option.noConfusion h
  rcases ts with _ | ⟨a11, ts⟩
  · rw [show parseTokens [a0, a1, a2, a3, a4, a5, a6, a7, a8, a9, a10] = none from rfl] at h
    exact Option.noConfusion h
  rcases ts with _ | ⟨a12, ts⟩
  · rw [show parseTokens [a0, a1, a2, a3, a4, a5, a6, a7, a8, a9, a10, a11] = none from rfl] at h
    exact Option.noConfusion h
  rcases ts with _ | ⟨a13, ts⟩
  · rw [show parseTokens [a0, a1, a2, a3, a4, a5, a6, a7, a8, a9, a10, a11, a12] = none from rfl] at h
    exact Option.noConfusion h
  rcases ts with _ | ⟨a14, ts⟩
  · rw [show parseTokens [a0, a1, a2, a3, a4, a5, a6, a7, a8, a9, a10, a11, a12, a13] = none from rfl] at h
    exact Option.noConfusion h
  simp only [parseTokens] at h
  rcases h1 : pyInt a1 with _ | v1
  · rw [h1, Option.none_bind] at h
    exact Option.noConfusion h
  simp only [h1, Option.some_bind] at h
  rcases h2 : pyInt a2 with _ | v2
  · rw [h2, Option.none_bind] at h
    exact Option.noConfusion h
  simp only [h2, Option.some_bind] at h
  rcases h3 : pyInt a3 with _ | v3
  · rw [h3, Option.none_bind] at h
    exact Option.noConfusion h
  simp only [h3, Option.some_bind] at h
  rcases h4 : pyFloat a4 with _ | v4
  · rw [h4, Option.none_bind] at h
    exact Option.noConfusion h
  simp only [h4, Option.some_bind] at h
  rcases h5 : pyInt a5 with _ | v5
  · rw [h5, Option.none_bind] at h
    exact Option.noConfusion h
  simp only [h5, Option.some_bind] at h
  rcases h6 : pyInt a6 with _ | v6
  · rw [h6, Option.none_bind] at h
    exact Option.noConfusion h
  simp only [h6, Option.some_bind] at h
  rcases h7 : pyInt a7 with _ | v7
  · rw [h7, Option.none_bind] at h
    exact Option.noConfusion h
  simp only [h7, Option.some_bind] at h
  rcases h8 : pyInt a8 with _ | v8
  · rw [h8, Option.none_bind] at h
    exact Option.noConfusion h
  simp only [h8, Option.some_bind] at h
  rcases h9 : pyInt a9 with _ | v9
  · rw [h9, Option.none_bind] at h
    exact Option.noConfusion h
  simp only [h9, Option.some_bind] at h
  rcases h10 : pyInt a10 with _ | v10
  · rw [h10, Option.none_bind] at h
    exact Option.noConfusion h
  simp only [h10, Option.some_bind] at h
  rcases h11 : pyInt a11 with _ | v11
  · rw [h11, Option.none_bind] at h
    exact Option.noConfusion h
  simp only [h11, Option.some_bind] at h
  rcases h12 : pyInt a12 with _ | v12
  · rw [h12, Option.none_bind] at h
    exact Option.noConfusion h
  simp only [h12, Option.some_bind] at h
  rcases h13 : pyFloat a13 with _ | v13
  · rw [h13, Option.none_bind] at h
    exact Option.noConfusion h
  simp only [h13, Option.some_bind] at h
  injection h with h2
  subst h2
  refine ⟨List.mem_cons_self _ _, by simp, a4, by simp, h4⟩

set_option maxHeartbeats 4000000 in
/-- Claim C5: for every line that parses, serializing the parsed record and
parsing again reproduces every field exactly — seqid, start, end, period,
copy number, consensus size, pctmatch, pctindel, score, the four base counts
and motif — except entropy, which agrees to two decimal places (its `"0:.2f"`
rendering is unchanged). -/
theorem c5_roundtrip (line : List Char) (r : STRLine ℚ) (h : parse line = some r) :
    ∃ r2 : STRLine ℚ, parse (serialize r) = some r2 ∧
      r2.seqid = r.seqid ∧ r2.start = r.start ∧ r2.«end» = r.«end» ∧
      r2.period = r.period ∧ r2.copynum = r.copynum ∧
      r2.consensusSize = r.consensusSize ∧ r2.pctmatch = r.pctmatch ∧
      r2.pctindel = r.pctindel ∧ r2.score = r.score ∧ r2.A = r.A ∧ r2.C = r.C ∧
      r2.G = r.G ∧ r2.T = r.T ∧ r2.motif = r.motif ∧
      format2f r2.entropy = format2f r.entropy := by
  have hts : parseTokens (splitWs line) = some r := h
  obtain ⟨hseq, hmot, t, ht, hcp⟩ := parseTokens_some_inv hts
  have hseqtok := splitWs_tokens line r.seqid hseq
  have hmottok := splitWs_tokens line r.motif hmot
  have hsplit : splitWs (serialize r) =
      [r.seqid, strOfInt r.start, strOfInt r.«end», strOfInt r.period,
        strOfFloat r.copynum, strOfInt r.consensusSize, strOfInt r.pctmatch,
        strOfInt r.pctindel, strOfInt r.score, strOfInt r.A, strOfInt r.C,
        strOfInt r.G, strOfInt r.T, format2f r.entropy, r.motif] := by
    refine splitWs_joinTab _ ?_
    intro x hx
    simp only [List.mem_cons, List.mem_singleton, List.mem_nil_iff, or_false] at hx
    rcases hx with rfl | rfl | rfl | rfl | rfl | rfl | rfl | rfl | rfl | rfl | rfl | rfl | rfl | rfl | rfl
    · exact hseqtok
    · exact strOfInt_token _
    · exact strOfInt_token _
    · exact strOfInt_token _
    · exact strOfFloat_token hcp
    · exact strOfInt_token _
    · exact strOfInt_token _
    · exact strOfInt_token _
    · exact strOfInt_token _
    · exact strOfInt_token _
    · exact strOfInt_token _
    · exact strOfInt_token _
    · exact strOfInt_token _
    · exact (format2f_parse r.entropy).2
    · exact hmottok
  refine ⟨{ r with entropy := mkRat (round2 r.entropy) 100 }, ?_, rfl, rfl, rfl,
    rfl, rfl, rfl, rfl, rfl, rfl, rfl, rfl, rfl, rfl, rfl,
    format2f_stable r.entropy⟩
  rw [show parse (serialize r) = parseTokens (splitWs (serialize r)) from rfl]
  rw [hsplit]
  simp only [parseTokens, pyInt_strOfInt, pyFloat_strOfFloat hcp,
    (format2f_parse r.entropy).1, Option.some_bind]

/-- The record parsed from the concrete witness line for claim C5. -/
def rC5w : STRLine ℚ :=
  ⟨"chr1".toList, 1, 9, 3, mkRat 97 10, 3, 100, 0, 30, 3, 3, 3, 0,
    mkRat 19 10, "ACG".toList⟩

theorem c5_roundtrip_witness :
    parse ("chr1 1 9 3 9.7 3 100 0 30 3 3 3 0 1.90 ACG".toList) = some rC5w ∧
      (∃ r2 : STRLine ℚ, parse (serialize rC5w) = some r2 ∧
        r2.seqid = rC5w.seqid ∧ r2.start = rC5w.start ∧ r2.«end» = rC5w.«end» ∧
        r2.period = rC5w.period ∧ r2.copynum = rC5w.copynum ∧
        r2.consensusSize = rC5w.consensusSize ∧ r2.pctmatch = rC5w.pctmatch ∧
        r2.pctindel = rC5w.pctindel ∧ r2.score = rC5w.score ∧ r2.A = rC5w.A ∧
        r2.C = rC5w.C ∧ r2.G = rC5w.G ∧ r2.T = rC5w.T ∧ r2.motif = rC5w.motif ∧
        format2f r2.entropy = format2f rC5w.entropy) :=
  ⟨by decide, c5_roundtrip ("chr1 1 9 3 9.7 3 100 0 30 3 3 3 0 1.90 ACG".toList)
    rC5w (by decide)⟩
